import Mathlib

/-!
Verification of core components of the jax-js array library against its
specification.  Each section embeds a part of the TypeScript source as Lean
definitions and proves (or refutes) one claim about it.

Machine integers are modelled as `Nat`/`Int` with explicit reduction
modulo `2^32` where 32-bit wraparound matters.
-/

set_option maxRecDepth 4096

/-! ## Threefry-2x32 PRNG (src/backend/wasm/builtins.ts, `wasm_threefry2x32`)

The WASM builder emits straight-line 32-bit integer code; the functions below
are the arithmetic it encodes, on naturals reduced mod 2^32. -/

namespace Threefry

/-- The 32-bit modulus. -/
def m32 : Nat := 4294967296

/-- Rotate a 32-bit word left by `r` bits (for `0 < r < 32`), as in
`cg.i32.rotl()`: `(x << r) | (x >> (32 - r))` on 32-bit words. -/
def rotl32 (x r : Nat) : Nat :=
  ((x <<< r) % m32) ||| ((x % m32) >>> (32 - r))

/-- One mix step of `wasm_threefry2x32`: `x0 += x1; x1 = rotl(x1, rot) ^ x0`. -/
def mix (rot : Nat) (s : Nat × Nat) : Nat × Nat :=
  let x0 := (s.1 + s.2) % m32
  let x1 := (rotl32 s.2 rot) ^^^ x0
  (x0, x1)

/-- Key-injection step of `wasm_threefry2x32`: `x0 += k0; x1 += k1 + round`. -/
def keySchedule (k0 k1 round : Nat) (s : Nat × Nat) : Nat × Nat :=
  ((s.1 + k0) % m32, (s.2 + k1 + round) % m32)

/-- The Threefry-2x32 block function emitted by `wasm_threefry2x32`
(src/backend/wasm/builtins.ts): key schedule
`ks2 = ks0 ^ ks1 ^ 0x1BD11BDA`, initial injection `x0 = ctr0 + ks0;
x1 = ctr1 + ks1`, then five rounds of four mix steps each with rotation
constants (13,15,26,6) on odd rounds and (17,29,16,24) on even rounds,
followed by the injections ks1/ks2+1, ks2/ks0+2, ks0/ks1+3, ks1/ks2+4,
ks2/ks0+5. -/
def threefry2x32 (key0 key1 ctr0 ctr1 : Nat) : Nat × Nat :=
  let ks0 := key0 % m32
  let ks1 := key1 % m32
  let ks2 := ks0 ^^^ ks1 ^^^ 0x1bd11bda
  let s := ((ctr0 + ks0) % m32, (ctr1 + ks1) % m32)
  let s := mix 6 (mix 26 (mix 15 (mix 13 s)))
  let s := keySchedule ks1 ks2 1 s
  let s := mix 24 (mix 16 (mix 29 (mix 17 s)))
  let s := keySchedule ks2 ks0 2 s
  let s := mix 6 (mix 26 (mix 15 (mix 13 s)))
  let s := keySchedule ks0 ks1 3 s
  let s := mix 24 (mix 16 (mix 29 (mix 17 s)))
  let s := keySchedule ks1 ks2 4 s
  let s := mix 6 (mix 26 (mix 15 (mix 13 s)))
  keySchedule ks2 ks0 5 s

end Threefry

/-- C5: the Threefry-2x32 implementation (5 rounds of four mix steps each,
with key injections ks1/ks2+1, ks2/ks0+2, ks0/ks1+3, ks1/ks2+4, ks2/ks0+5,
where ks2 = key0 XOR key1 XOR 0x1BD11BDA), evaluated in 32-bit wraparound
arithmetic on key (0,0) and counter (0,0), returns exactly the pair
(1797259609, 2579123966). -/
theorem threefry2x32_zero_canonical :
    Threefry.threefry2x32 0 0 0 0 = (1797259609, 2579123966) := by
  decide

/-! ## WebGPU grid tiling (src/backend/webgpu/codegen.ts, `calculateGrid`) -/

namespace WebgpuCodegen

/-- The wrap length along Y, `gridOffsetY` in codegen.ts. -/
def gridOffsetY : Nat := 16384

/-- Embedding of `calculateGrid`: one dimension up to the platform limit of
65535 workgroups, otherwise wrap at 16384 along Y with
`gridY = ceil(gridSize / 16384)`. -/
def calculateGrid (gridSize : Nat) : Nat × Nat :=
  if gridSize > 65535 then
    (gridOffsetY, (gridSize + (gridOffsetY - 1)) / gridOffsetY)
  else
    (gridSize, 1)

end WebgpuCodegen

/-- C6: for every positive `gridSize`, `calculateGrid` returns
`(gridSize, 1)` when `gridSize <= 65535` and `(16384, ceil(gridSize/16384))`
otherwise; in both cases `gridX * gridY >= gridSize`, and every batch index
`b < gridSize` is produced by exactly one pair `(wg.x, wg.y)` with
`wg.x < gridX`, `wg.y < gridY` under the mapping
`batch = wg.x + wg.y * 16384`. -/
theorem calculateGrid_spec (gridSize : Nat) (hpos : 0 < gridSize) :
    (gridSize ≤ 65535 → WebgpuCodegen.calculateGrid gridSize = (gridSize, 1)) ∧
    (65535 < gridSize →
      WebgpuCodegen.calculateGrid gridSize = (16384, (gridSize + 16383) / 16384)) ∧
    gridSize ≤ (WebgpuCodegen.calculateGrid gridSize).1 *
      (WebgpuCodegen.calculateGrid gridSize).2 ∧
    ∀ b < gridSize, ∃! wg : Nat × Nat,
      wg.1 < (WebgpuCodegen.calculateGrid gridSize).1 ∧
      wg.2 < (WebgpuCodegen.calculateGrid gridSize).2 ∧
      b = wg.1 + wg.2 * 16384 := by
  unfold WebgpuCodegen.calculateGrid WebgpuCodegen.gridOffsetY
  by_cases h : gridSize > 65535
  · simp only [if_pos h]
    refine ⟨fun hle => absurd h (by omega), fun _ => trivial, ?_, ?_⟩
    · omega
    · intro b hb
      refine ⟨(b % 16384, b / 16384), ⟨?_, ?_, ?_⟩, ?_⟩
      · exact Nat.mod_lt _ (by norm_num)
      · omega
      · omega
      · rintro ⟨x, y⟩ ⟨hx, hy, hxy⟩
        have : x = b % 16384 ∧ y = b / 16384 := by omega
        simp [this.1, this.2]
  · simp only [if_neg h]
    refine ⟨fun _ => trivial, fun hgt => absurd hgt h, by omega, ?_⟩
    intro b hb
    refine ⟨(b, 0), ⟨hb, Nat.zero_lt_one, by omega⟩, ?_⟩
    rintro ⟨x, y⟩ ⟨hx, hy, hxy⟩
    have hy0 : y = 0 := by omega
    simp [hy0] at hxy
    simp [hy0, hxy]

/-- Witness for C6 at concrete inputs on both sides of the 65535 limit. -/
theorem calculateGrid_spec_witness :
    (0 < 70000 ∧
      ((70000 ≤ 65535 → WebgpuCodegen.calculateGrid 70000 = (70000, 1)) ∧
      (65535 < 70000 →
        WebgpuCodegen.calculateGrid 70000 = (16384, (70000 + 16383) / 16384)) ∧
      70000 ≤ (WebgpuCodegen.calculateGrid 70000).1 *
        (WebgpuCodegen.calculateGrid 70000).2 ∧
      ∀ b < 70000, ∃! wg : Nat × Nat,
        wg.1 < (WebgpuCodegen.calculateGrid 70000).1 ∧
        wg.2 < (WebgpuCodegen.calculateGrid 70000).2 ∧
        b = wg.1 + wg.2 * 16384)) :=
  ⟨by norm_num, calculateGrid_spec 70000 (by norm_num)⟩

/-! ## Refcounted buffer slots (src/backend/cpu.ts `CPUBackend` and the
identical slot logic of `WasmBackend`)

Both backends keep `buffers: Map<Slot, { ref, buffer }>` and a `nextSlot`
counter.  Buffers are byte arrays, modelled as lists of byte values. -/

namespace RefBackend

/-- A map entry: reference count plus buffer contents (`{ ref, buffer }`). -/
structure BufEntry where
  ref : Nat
  buffer : List Nat
deriving Repr, DecidableEq

/-- Backend state: the slot table and the `nextSlot` counter. -/
structure State where
  buffers : List (Nat × BufEntry)
  nextSlot : Nat
deriving Repr, DecidableEq

/-- The initial backend state (`buffers` empty, `nextSlot = 1`). -/
def State.init : State := { buffers := [], nextSlot := 1 }

/-- Outcome of a backend call: a value, the `SlotError` thrown on a missing
slot, or another `Error` (e.g. an `initialData` size mismatch). -/
inductive Result (α : Type) where
  | ok (value : α)
  | slotError (slot : Nat)
  | error (msg : String)
deriving Repr, DecidableEq

/-- Look up a key in an association list (the `Map.get` of the slot table). -/
def lookupSlot (k : Nat) : List (Nat × BufEntry) → Option BufEntry
  | [] => none
  | p :: rest => if p.1 = k then some p.2 else lookupSlot k rest

/-- Look up a slot in the table (`this.buffers.get(slot)`). -/
def State.get (s : State) (slot : Nat) : Option BufEntry :=
  lookupSlot slot s.buffers

/-- Replace the entry of `slot` by `e`. -/
def State.set (s : State) (slot : Nat) (e : BufEntry) : State :=
  { s with buffers := s.buffers.map fun p => if p.1 = slot then (slot, e) else p }

/-- Delete the entry of `slot` (`this.buffers.delete(slot)`). -/
def State.delete (s : State) (slot : Nat) : State :=
  { s with buffers := s.buffers.filter fun p => p.1 ≠ slot }

/-- Embedding of `malloc(size, initialData?)`: allocate a zero-filled buffer
(or a copy of `initialData` of matching length), insert it with refcount 1 at
`nextSlot`, and increment `nextSlot`. -/
def malloc (s : State) (size : Nat) (initialData : Option (List Nat)) :
    Result (Nat × State) :=
  match initialData with
  | some init =>
      if init.length ≠ size then
        .error "initialData size does not match buffer size"
      else
        .ok (s.nextSlot,
          { buffers := s.buffers ++ [(s.nextSlot, ⟨1, init⟩)],
            nextSlot := s.nextSlot + 1 })
  | none =>
      .ok (s.nextSlot,
        { buffers := s.buffers ++ [(s.nextSlot, ⟨1, List.replicate size 0⟩)],
          nextSlot := s.nextSlot + 1 })

/-- Embedding of `incRef(slot)`: `SlotError` if absent, else `ref++`. -/
def incRef (s : State) (slot : Nat) : Result State :=
  match s.get slot with
  | none => .slotError slot
  | some e => .ok (s.set slot ⟨e.ref + 1, e.buffer⟩)

/-- Embedding of `decRef(slot)`: `SlotError` if absent, else `ref--`, and the
entry is deleted when the count reaches 0. -/
def decRef (s : State) (slot : Nat) : Result State :=
  match s.get slot with
  | none => .slotError slot
  | some e =>
      if e.ref - 1 = 0 then .ok (s.delete slot)
      else .ok (s.set slot ⟨e.ref - 1, e.buffer⟩)

/-- Embedding of `readSync(slot, start?, count?)` with the default range
(`start = 0`, `count = byteLength`): `SlotError` if absent, else the bytes. -/
def readSync (s : State) (slot : Nat) : Result (List Nat) :=
  match s.get slot with
  | none => .slotError slot
  | some e => .ok e.buffer

/-- Well-formedness maintained by the backend: every stored slot is below
`nextSlot` and slots are distinct. -/
def WF (s : State) : Prop :=
  (∀ p ∈ s.buffers, p.1 < s.nextSlot) ∧ (s.buffers.map Prod.fst).Nodup

instance : DecidablePred WF := fun s => by
  unfold WF; infer_instance

theorem lookup_fresh (l : List (Nat × RefBackend.BufEntry)) (n : Nat)
    (h : ∀ p ∈ l, p.1 < n) : lookupSlot n l = none := by
  induction l with
  | nil => rfl
  | cons p rest ih =>
      have hp := h p (List.mem_cons_self p rest)
      have hne : ¬ (p.1 = n) := by omega
      simp only [lookupSlot, if_neg hne]
      exact ih fun q hq => h q (List.mem_cons_of_mem p hq)

theorem lookup_append_self (l : List (Nat × RefBackend.BufEntry)) (k : Nat)
    (e : BufEntry) (h : lookupSlot k l = none) :
    lookupSlot k (l ++ [(k, e)]) = some e := by
  induction l with
  | nil => simp [lookupSlot]
  | cons p rest ih =>
      by_cases hk : p.1 = k
      · simp [lookupSlot, hk] at h
      · simp only [lookupSlot, if_neg hk] at h
        simp only [List.cons_append, lookupSlot, if_neg hk]
        exact ih h

theorem lookup_map_set (l : List (Nat × RefBackend.BufEntry)) (k : Nat)
    (e e' : BufEntry) (h : lookupSlot k l = some e) :
    lookupSlot k (l.map fun p => if p.1 = k then (k, e') else p) = some e' := by
  induction l with
  | nil => simp [lookupSlot] at h
  | cons p rest ih =>
      simp only [List.map_cons]
      by_cases hk : p.1 = k
      · simp [lookupSlot, hk]
      · rw [if_neg hk]
        simp only [lookupSlot, if_neg hk] at h ⊢
        exact ih h

theorem lookup_filter_ne (l : List (Nat × RefBackend.BufEntry)) (k : Nat) :
    lookupSlot k (l.filter fun p => p.1 ≠ k) = none := by
  induction l with
  | nil => rfl
  | cons p rest ih =>
      by_cases hk : p.1 = k
      · have hd : (decide (p.1 ≠ k)) = false := by simp [hk]
        simp only [List.filter, hd]
        exact ih
      · have hd : (decide (p.1 ≠ k)) = true := by simp [hk]
        simp only [List.filter, hd]
        simp only [lookupSlot, if_neg hk]
        exact ih

end RefBackend

/-- C7: for every backend buffer slot of the CPU and WASM backends, `malloc`
returns a fresh slot (absent before the call) with refcount 1; `incRef`
increments and `decRef` decrements the refcount; the buffer is reclaimed
exactly when the refcount reaches 0 (absent after a `decRef` from count 1,
still present otherwise); and `incRef`, `decRef` or a read of a slot that is
absent (freed or never allocated) fails with a `SlotError`. -/
theorem refBackend_slot_spec (s : RefBackend.State) (size : Nat) (k : Nat)
    (hwf : RefBackend.WF s) :
    (RefBackend.State.get s s.nextSlot = none ∧
      ∃ s', RefBackend.malloc s size none = .ok (s.nextSlot, s') ∧
        s'.get s.nextSlot = some ⟨1, List.replicate size 0⟩) ∧
    (∀ e, s.get k = some e →
      ∃ s', RefBackend.incRef s k = .ok s' ∧
        s'.get k = some ⟨e.ref + 1, e.buffer⟩) ∧
    (∀ e, s.get k = some e → e.ref = 1 →
      ∃ s', RefBackend.decRef s k = .ok s' ∧ s'.get k = none) ∧
    (∀ e, s.get k = some e → 2 ≤ e.ref →
      ∃ s', RefBackend.decRef s k = .ok s' ∧
        s'.get k = some ⟨e.ref - 1, e.buffer⟩) ∧
    (s.get k = none →
      RefBackend.incRef s k = .slotError k ∧
      RefBackend.decRef s k = .slotError k ∧
      RefBackend.readSync s k = .slotError k) := by
  obtain ⟨hlt, hnodup⟩ := hwf
  have hfresh : s.get s.nextSlot = none := RefBackend.lookup_fresh s.buffers s.nextSlot hlt
  refine ⟨⟨hfresh, ?_⟩, ?_, ?_, ?_, ?_⟩
  · exact ⟨_, rfl, RefBackend.lookup_append_self s.buffers s.nextSlot _ hfresh⟩
  · intro e he
    refine ⟨s.set k ⟨e.ref + 1, e.buffer⟩, ?_, ?_⟩
    · unfold RefBackend.incRef
      rw [he]
    · exact RefBackend.lookup_map_set s.buffers k e _ he
  · intro e he href
    refine ⟨s.delete k, ?_, RefBackend.lookup_filter_ne s.buffers k⟩
    unfold RefBackend.decRef
    rw [he]
    simp [href]
  · intro e he href
    refine ⟨s.set k ⟨e.ref - 1, e.buffer⟩, ?_, ?_⟩
    · unfold RefBackend.decRef
      rw [he]
      have hne : ¬ (e.ref - 1 = 0) := by omega
      simp [hne]
    · exact RefBackend.lookup_map_set s.buffers k e _ he
  · intro hnone
    unfold RefBackend.incRef RefBackend.decRef RefBackend.readSync
    rw [hnone]
    exact ⟨rfl, rfl, rfl⟩

/-- Witness for C7 on a concrete two-slot state. -/
theorem refBackend_slot_spec_witness :
    RefBackend.WF ⟨[(1, ⟨2, [7]⟩), (2, ⟨1, []⟩)], 3⟩ ∧
    ((RefBackend.State.get ⟨[(1, ⟨2, [7]⟩), (2, ⟨1, []⟩)], 3⟩ 3 = none ∧
      ∃ s', RefBackend.malloc ⟨[(1, ⟨2, [7]⟩), (2, ⟨1, []⟩)], 3⟩ 2 none = .ok (3, s') ∧
        s'.get 3 = some ⟨1, List.replicate 2 0⟩) ∧
    (∀ e, RefBackend.State.get ⟨[(1, ⟨2, [7]⟩), (2, ⟨1, []⟩)], 3⟩ 1 = some e →
      ∃ s', RefBackend.incRef ⟨[(1, ⟨2, [7]⟩), (2, ⟨1, []⟩)], 3⟩ 1 = .ok s' ∧
        s'.get 1 = some ⟨e.ref + 1, e.buffer⟩) ∧
    (∀ e, RefBackend.State.get ⟨[(1, ⟨2, [7]⟩), (2, ⟨1, []⟩)], 3⟩ 1 = some e → e.ref = 1 →
      ∃ s', RefBackend.decRef ⟨[(1, ⟨2, [7]⟩), (2, ⟨1, []⟩)], 3⟩ 1 = .ok s' ∧ s'.get 1 = none) ∧
    (∀ e, RefBackend.State.get ⟨[(1, ⟨2, [7]⟩), (2, ⟨1, []⟩)], 3⟩ 1 = some e → 2 ≤ e.ref →
      ∃ s', RefBackend.decRef ⟨[(1, ⟨2, [7]⟩), (2, ⟨1, []⟩)], 3⟩ 1 = .ok s' ∧
        s'.get 1 = some ⟨e.ref - 1, e.buffer⟩) ∧
    (RefBackend.State.get ⟨[(1, ⟨2, [7]⟩), (2, ⟨1, []⟩)], 3⟩ 1 = none →
      RefBackend.incRef ⟨[(1, ⟨2, [7]⟩), (2, ⟨1, []⟩)], 3⟩ 1 = .slotError 1 ∧
      RefBackend.decRef ⟨[(1, ⟨2, [7]⟩), (2, ⟨1, []⟩)], 3⟩ 1 = .slotError 1 ∧
      RefBackend.readSync ⟨[(1, ⟨2, [7]⟩), (2, ⟨1, []⟩)], 3⟩ 1 = .slotError 1)) :=
  ⟨by decide, refBackend_slot_spec ⟨[(1, ⟨2, [7]⟩), (2, ⟨1, []⟩)], 3⟩ 2 1 (by decide)⟩

/-! ## argmax / argmin (src/numpy.ts)

`argmax(a, axis)` is computed as `length - max(where(a == max(a, axis), 1, 0)
* arange(length, 0, -1), axis)`, and `argmin` the same with `min` for the
inner extreme.  Along the reduced axis this composite acts independently on
each one-dimensional slice, embedded below as a list of int32 values.  The
reductions use the int32 identities of the `Max` and `Min` ALU ops. -/

namespace NumpyArg

/-- Identity of the `Max` reduction at dtype int32. -/
def int32MinC : Int := -2147483648

/-- Identity of the `Min` reduction at dtype int32. -/
def int32MaxC : Int := 2147483647

/-- The `Max` reduction loop: `acc = identity; acc = max(acc, item)`. -/
def reduceMax (xs : List Int) : Int := xs.foldl max int32MinC

/-- The `Min` reduction loop: `acc = identity; acc = min(acc, item)`. -/
def reduceMin (xs : List Int) : Int := xs.foldl min int32MaxC

/-- Element `off + j` of `where(a == m, 1, 0) * arange(L, 0, -1)`: the value
`L - i` at each position `i` attaining `m`, and `0` elsewhere. -/
def scores (m : Int) (L : Nat) : Nat → List Int → List Int
  | _, [] => []
  | off, x :: rest =>
      (if x = m then (L : Int) - off else 0) :: scores m L (off + 1) rest

/-- Embedding of the `argmax` composite of src/numpy.ts on one slice:
`length - max(where(a == max(a), 1, 0) * arange(length, 0, -1))`. -/
def argmaxList (xs : List Int) : Int :=
  (xs.length : Int) - reduceMax (scores (reduceMax xs) xs.length 0 xs)

/-- Embedding of the `argmin` composite of src/numpy.ts on one slice:
`length - max(where(a == min(a), 1, 0) * arange(length, 0, -1))`. -/
def argminList (xs : List Int) : Int :=
  (xs.length : Int) - reduceMax (scores (reduceMin xs) xs.length 0 xs)

theorem foldl_max_le (xs : List Int) (b c : Int) (hb : b ≤ c)
    (h : ∀ x ∈ xs, x ≤ c) : xs.foldl max b ≤ c := by
  induction xs generalizing b with
  | nil => exact hb
  | cons x rest ih =>
      simp only [List.foldl_cons]
      exact ih (max b x) (max_le hb (h x (List.mem_cons_self x rest)))
        fun y hy => h y (List.mem_cons_of_mem x hy)

theorem base_le_foldl_max (xs : List Int) (b : Int) : b ≤ xs.foldl max b := by
  induction xs generalizing b with
  | nil => exact le_refl b
  | cons x rest ih =>
      simp only [List.foldl_cons]
      exact le_trans (le_max_left b x) (ih (max b x))

theorem mem_le_foldl_max (xs : List Int) (b : Int) (x : Int) (hx : x ∈ xs) :
    x ≤ xs.foldl max b := by
  induction xs generalizing b with
  | nil => cases hx
  | cons y rest ih =>
      simp only [List.foldl_cons]
      rcases List.mem_cons.mp hx with h | h
      · subst h
        exact le_trans (le_max_right b x) (base_le_foldl_max rest (max b x))
      · exact ih (max b y) h

theorem foldl_max_mem (xs : List Int) (b : Int) :
    xs.foldl max b = b ∨ xs.foldl max b ∈ xs := by
  induction xs generalizing b with
  | nil => exact Or.inl rfl
  | cons x rest ih =>
      simp only [List.foldl_cons]
      rcases ih (max b x) with h | h
      · rcases max_cases b x with ⟨he, _⟩ | ⟨he, _⟩
        · rw [he] at h ⊢
          exact Or.inl h
        · rw [he] at h ⊢
          exact Or.inr (by rw [h]; exact List.mem_cons_self x rest)
      · exact Or.inr (List.mem_cons_of_mem x h)

theorem foldl_min_base (xs : List Int) (b : Int) : xs.foldl min b ≤ b := by
  induction xs generalizing b with
  | nil => exact le_refl b
  | cons x rest ih =>
      simp only [List.foldl_cons]
      exact le_trans (ih (min b x)) (min_le_left b x)

theorem foldl_min_le_mem (xs : List Int) (b : Int) (x : Int) (hx : x ∈ xs) :
    xs.foldl min b ≤ x := by
  induction xs generalizing b with
  | nil => cases hx
  | cons y rest ih =>
      simp only [List.foldl_cons]
      rcases List.mem_cons.mp hx with h | h
      · subst h
        exact le_trans (foldl_min_base rest (min b x)) (min_le_right b x)
      · exact ih (min b y) h

theorem foldl_min_mem (xs : List Int) (b : Int) :
    xs.foldl min b = b ∨ xs.foldl min b ∈ xs := by
  induction xs generalizing b with
  | nil => exact Or.inl rfl
  | cons x rest ih =>
      simp only [List.foldl_cons]
      rcases ih (min b x) with h | h
      · rcases min_cases b x with ⟨he, _⟩ | ⟨he, _⟩
        · rw [he] at h ⊢
          exact Or.inl h
        · rw [he] at h ⊢
          exact Or.inr (by rw [h]; exact List.mem_cons_self x rest)
      · exact Or.inr (List.mem_cons_of_mem x h)

theorem reduceMax_mem (xs : List Int) (hne : xs ≠ [])
    (hrange : ∀ x ∈ xs, int32MinC ≤ x) : reduceMax xs ∈ xs := by
  rcases foldl_max_mem xs int32MinC with h | h
  · rcases xs with _ | ⟨x, rest⟩
    · exact absurd rfl hne
    · have hx := hrange x (List.mem_cons_self x rest)
      have hle := mem_le_foldl_max (x :: rest) int32MinC x
        (List.mem_cons_self x rest)
      unfold reduceMax
      rw [h] at hle ⊢
      have : x = int32MinC := le_antisymm hle hx
      rw [← this]
      exact List.mem_cons_self x rest
  · exact h

theorem reduceMax_is_ub (xs : List Int) (x : Int) (hx : x ∈ xs) :
    x ≤ reduceMax xs := mem_le_foldl_max xs int32MinC x hx

theorem reduceMin_mem (xs : List Int) (hne : xs ≠ [])
    (hrange : ∀ x ∈ xs, x ≤ int32MaxC) : reduceMin xs ∈ xs := by
  rcases foldl_min_mem xs int32MaxC with h | h
  · rcases xs with _ | ⟨x, rest⟩
    · exact absurd rfl hne
    · have hx := hrange x (List.mem_cons_self x rest)
      have hle := foldl_min_le_mem (x :: rest) int32MaxC x
        (List.mem_cons_self x rest)
      unfold reduceMin
      rw [h] at hle ⊢
      have : x = int32MaxC := le_antisymm hx hle
      rw [← this]
      exact List.mem_cons_self x rest
  · exact h

/-- Index of the first occurrence of `m` in a list, if any. -/
def firstHit (m : Int) : List Int → Option Nat
  | [] => none
  | x :: rest => if x = m then some 0 else (firstHit m rest).map (· + 1)

theorem firstHit_isSome_of_mem (m : Int) (xs : List Int) (h : m ∈ xs) :
    ∃ i, firstHit m xs = some i := by
  induction xs with
  | nil => cases h
  | cons x rest ih =>
      by_cases hx : x = m
      · exact ⟨0, by simp [firstHit, hx]⟩
      · have hm : m ∈ rest := by
          rcases List.mem_cons.mp h with hh | hh
          · exact absurd hh.symm hx
          · exact hh
        obtain ⟨i, hi⟩ := ih hm
        exact ⟨i + 1, by simp [firstHit, hx, hi]⟩

theorem firstHit_lt_length (m : Int) (xs : List Int) (i : Nat)
    (h : firstHit m xs = some i) : i < xs.length := by
  induction xs generalizing i with
  | nil => simp [firstHit] at h
  | cons x rest ih =>
      by_cases hx : x = m
      · simp [firstHit, hx] at h
        simp only [List.length_cons]
        omega
      · simp only [firstHit, if_neg hx, Option.map_eq_some'] at h
        obtain ⟨j, hj, hij⟩ := h
        have := ih j hj
        simp only [List.length_cons]
        omega

theorem firstHit_get (m : Int) (xs : List Int) (i : Nat)
    (h : firstHit m xs = some i) : xs.get? i = some m := by
  induction xs generalizing i with
  | nil => simp [firstHit] at h
  | cons x rest ih =>
      by_cases hx : x = m
      · simp [firstHit, hx] at h
        subst h
        simp [hx]
      · simp only [firstHit, if_neg hx, Option.map_eq_some'] at h
        obtain ⟨j, hj, hij⟩ := h
        subst hij
        simpa using ih j hj

theorem firstHit_min (m : Int) (xs : List Int) (i : Nat)
    (h : firstHit m xs = some i) : ∀ j < i, xs.get? j ≠ some m := by
  induction xs generalizing i with
  | nil => simp [firstHit] at h
  | cons x rest ih =>
      by_cases hx : x = m
      · simp [firstHit, hx] at h
        intro k hk
        exact absurd hk (by omega)
      · simp only [firstHit, if_neg hx, Option.map_eq_some'] at h
        obtain ⟨j, hj, hij⟩ := h
        subst hij
        intro k hk
        rcases k with _ | k
        · simpa using fun hh => hx hh
        · simpa using ih j hj k (by omega)

theorem scores_entry_le (m : Int) (L : Nat) (off : Nat) (xs : List Int)
    (hoff : off + xs.length ≤ L) :
    ∀ y ∈ scores m L off xs, y ≤ (L : Int) - off := by
  induction xs generalizing off with
  | nil => intro y hy; cases hy
  | cons x rest ih =>
      intro y hy
      simp only [scores] at hy
      rcases List.mem_cons.mp hy with h | h
      · subst h
        split
        · exact le_refl _
        · have : (0 : Int) ≤ (L : Int) - off := by
            simp only [List.length_cons] at hoff
            omega
          exact this
      · have := ih (off + 1) (by simp only [List.length_cons] at hoff; omega) y h
        omega

theorem fold_scores_some (m : Int) (L : Nat) (xs : List Int) (off : Nat)
    (b : Int) (i : Nat) (hh : firstHit m xs = some i)
    (hoff : off + xs.length ≤ L) (hb : b ≤ (L : Int) - (off + i)) :
    (scores m L off xs).foldl max b = (L : Int) - (off + i) := by
  induction xs generalizing off b i with
  | nil => simp [firstHit] at hh
  | cons x rest ih =>
      simp only [List.length_cons] at hoff
      by_cases hx : x = m
      · simp [firstHit, hx] at hh
        subst hh
        simp only [Nat.cast_zero, add_zero] at hb ⊢
        simp only [scores, if_pos hx, List.foldl_cons]
        rw [max_eq_right hb]
        have hub := foldl_max_le (scores m L (off + 1) rest) ((L : Int) - off)
          ((L : Int) - off) (le_refl _)
          (fun y hy => le_trans (scores_entry_le m L (off + 1) rest (by omega) y hy)
            (by push_cast; omega))
        have hlb := base_le_foldl_max (scores m L (off + 1) rest) ((L : Int) - off)
        omega
      · simp only [firstHit, if_neg hx, Option.map_eq_some'] at hh
        obtain ⟨j, hj, hij⟩ := hh
        subst hij
        simp only [scores, if_neg hx, List.foldl_cons]
        have hji := firstHit_lt_length m rest j hj
        have hrec := ih (off + 1) (max b 0) j hj (by omega) (by
          apply max_le
          · push_cast
            push_cast at hb
            omega
          · push_cast
            omega)
        rw [hrec]
        push_cast
        ring

theorem arg_first_occurrence (xs : List Int) (m : Int) (hm : m ∈ xs) :
    ∃ k : Nat, (xs.length : Int) - reduceMax (scores m xs.length 0 xs) = k ∧
      xs.get? k = some m ∧ ∀ j < k, xs.get? j ≠ some m := by
  obtain ⟨i, hi⟩ := firstHit_isSome_of_mem m xs hm
  have hlt := firstHit_lt_length m xs i hi
  have hb : int32MinC ≤ (xs.length : Int) - ((0 : Nat) + i) := by
    simp only [int32MinC]
    push_cast
    omega
  have hfold := fold_scores_some m xs.length xs 0 int32MinC i hi (by omega) hb
  refine ⟨i, ?_, firstHit_get m xs i hi, firstHit_min m xs i hi⟩
  unfold reduceMax
  unfold reduceMax at hfold
  rw [hfold]
  push_cast
  ring

end NumpyArg

/-- C9: for every int32 slice along the reduced axis, if the maximum
occurs more than once then `argmax` — computed in src/numpy.ts as length
minus the maximum of `(length - i)` over the positions `i` attaining the
extreme — returns the smallest index attaining the maximum, i.e. the first
occurrence; and independently, if the minimum occurs more than once then
`argmin` returns the smallest index attaining the minimum. -/
theorem argmax_argmin_first_occurrence (xs : List Int)
    (hlo : ∀ x ∈ xs, NumpyArg.int32MinC ≤ x)
    (hhi : ∀ x ∈ xs, x ≤ NumpyArg.int32MaxC) :
    ((∃ i j : Nat, i ≠ j ∧ xs.get? i = some (NumpyArg.reduceMax xs) ∧
        xs.get? j = some (NumpyArg.reduceMax xs)) →
      ∃ k : Nat, NumpyArg.argmaxList xs = (k : Int) ∧
        xs.get? k = some (NumpyArg.reduceMax xs) ∧
        ∀ j < k, xs.get? j ≠ some (NumpyArg.reduceMax xs)) ∧
    ((∃ i j : Nat, i ≠ j ∧ xs.get? i = some (NumpyArg.reduceMin xs) ∧
        xs.get? j = some (NumpyArg.reduceMin xs)) →
      ∃ k : Nat, NumpyArg.argminList xs = (k : Int) ∧
        xs.get? k = some (NumpyArg.reduceMin xs) ∧
        ∀ j < k, xs.get? j ≠ some (NumpyArg.reduceMin xs)) := by
  constructor
  · intro hmax2
    have hne : xs ≠ [] := by
      obtain ⟨i, _, _, hgi, _⟩ := hmax2
      intro hnil
      rw [hnil] at hgi
      simp at hgi
    exact NumpyArg.arg_first_occurrence xs (NumpyArg.reduceMax xs)
      (NumpyArg.reduceMax_mem xs hne hlo)
  · intro hmin2
    have hne : xs ≠ [] := by
      obtain ⟨i, _, _, hgi, _⟩ := hmin2
      intro hnil
      rw [hnil] at hgi
      simp at hgi
    exact NumpyArg.arg_first_occurrence xs (NumpyArg.reduceMin xs)
      (NumpyArg.reduceMin_mem xs hne hhi)

/-- Witness for C9: the argmax half on the slice `[5, 5, 1]` (maximum
duplicated at indices 0 and 1, minimum unique) and the argmin half on the
slice `[3, 1, 1]` (minimum duplicated at indices 1 and 2, maximum
unique). -/
theorem argmax_argmin_first_occurrence_witness :
    ((∀ x ∈ [(5 : Int), 5, 1], NumpyArg.int32MinC ≤ x) ∧
     (∀ x ∈ [(5 : Int), 5, 1], x ≤ NumpyArg.int32MaxC) ∧
     (∃ i j : Nat, i ≠ j ∧
       [(5 : Int), 5, 1].get? i = some (NumpyArg.reduceMax [(5 : Int), 5, 1]) ∧
       [(5 : Int), 5, 1].get? j = some (NumpyArg.reduceMax [(5 : Int), 5, 1])) ∧
     (∃ i j : Nat, i ≠ j ∧
       [(3 : Int), 1, 1].get? i = some (NumpyArg.reduceMin [(3 : Int), 1, 1]) ∧
       [(3 : Int), 1, 1].get? j = some (NumpyArg.reduceMin [(3 : Int), 1, 1]))) ∧
    (∃ k : Nat, NumpyArg.argmaxList [(5 : Int), 5, 1] = (k : Int) ∧
      [(5 : Int), 5, 1].get? k = some (NumpyArg.reduceMax [(5 : Int), 5, 1]) ∧
      ∀ j < k, [(5 : Int), 5, 1].get? j ≠
        some (NumpyArg.reduceMax [(5 : Int), 5, 1])) ∧
    (∃ k : Nat, NumpyArg.argminList [(3 : Int), 1, 1] = (k : Int) ∧
      [(3 : Int), 1, 1].get? k = some (NumpyArg.reduceMin [(3 : Int), 1, 1]) ∧
      ∀ j < k, [(3 : Int), 1, 1].get? j ≠
        some (NumpyArg.reduceMin [(3 : Int), 1, 1])) :=
  ⟨⟨by decide, by decide, ⟨0, 1, by decide, by decide, by decide⟩,
      ⟨1, 2, by decide, by decide, by decide⟩⟩,
    (argmax_argmin_first_occurrence [(5 : Int), 5, 1]
      (by decide) (by decide)).1 ⟨0, 1, by decide, by decide, by decide⟩,
    (argmax_argmin_first_occurrence [(3 : Int), 1, 1]
      (by decide) (by decide)).2 ⟨1, 2, by decide, by decide, by decide⟩⟩


/-! ## Shape-tracker views (modelled from the spec)

shape.ts is absent from src/; the spec (section 4.2) describes a tracker as
views `(shape, strides, offset, optional mask)` closed under
reshape/permute/expand/flip/slice/pad/compose.  The kernels analysed below
use single maskless views; `compose` of mergeable views is represented by
the strides of the composed affine index map. -/

namespace Shape

/-- A single view: logical shape, strides, offset (no mask; the kernels
analysed here never pad). -/
structure View where
  shape : List Nat
  strides : List Int
  offset : Int
deriving DecidableEq, Repr

/-- Product of a shape. -/
def prodNat (l : List Nat) : Nat := l.foldl (· * ·) 1

/-- Suffix product `prod(shape[i..])`. -/
def suffixProd (shape : List Nat) (i : Nat) : Nat := prodNat (shape.drop i)

/-- Strides of a contiguous view: reversed suffix products. -/
def contiguousStrides : List Nat → List Int
  | [] => []
  | _ :: rest => (prodNat rest : Int) :: contiguousStrides rest

/-- `ShapeTracker.fromShape`: a single contiguous view. -/
def fromShape (shape : List Nat) : View :=
  ⟨shape, contiguousStrides shape, 0⟩

/-- `permute(axes)`: permute shape and strides of the view. -/
def permute (v : View) (axes : List Nat) : View :=
  ⟨axes.map (fun i => v.shape.getD i 1),
    axes.map (fun i => v.strides.getD i 0), v.offset⟩

/-- Reshape splitting axis `axis` of length `L` into `(L / amount, amount)`
(the only reshape the tuner performs); a split of a single-view axis with
stride `s` yields strides `(s * amount, s)`. -/
def splitAxis (v : View) (axis amount : Nat) : View :=
  let l := v.shape.getD axis 1
  let s := v.strides.getD axis 0
  ⟨v.shape.take axis ++ [l / amount, amount] ++ v.shape.drop (axis + 1),
    v.strides.take axis ++ [s * amount, s] ++ v.strides.drop (axis + 1),
    v.offset⟩

/-- Digits of linear index `l` in shape `shape`:
`digit i = (l / suffixProd (i+1)) % shape[i]`. -/
def unravelIdx (shape : List Nat) (l : Int) : List Int :=
  (List.range shape.length).map fun i =>
    (l / (suffixProd shape (i + 1) : Int)) % (shape.getD i 1 : Int)

/-- Buffer offset of a multi-index under a view. -/
def offsetOf (v : View) (idx : List Int) : Int :=
  v.offset + ((v.strides.zip idx).map fun p => p.1 * p.2).foldl (· + ·) 0

/-- Modelled from the spec: `lastStrides` of `st.compose(d)` — the stride
along each axis of the composed affine index map, i.e. the change in the
buffer offset of `st` (applied to the unravelled linear index of `d`) when
the axis moves by one. -/
def composedLastStrides (st : View) (d : View) : List Int :=
  let g := fun (l : Int) => offsetOf st (unravelIdx st.shape l)
  (List.range d.shape.length).map fun i =>
    g (d.offset + d.strides.getD i 0) - g d.offset

end Shape

/-! ## ALU expressions and kernel dispatch (C1)

The ALU IR lives in the absent alu.ts; the fragment below is modelled from
the spec (§3, §4.1): pure expression trees with constants, named specials
(`gidx`, `ridx`, `acc`), binary math ops, and `GlobalIndex` reads, evaluated
by a tree walk in which a missing special or global is a fatal error
(modelled as `none`).  Scalar arithmetic is modelled on `Int`; the dispatch
loops under test only move and add small exactly-representable values.
`simplify()` (applied by `CPUBackend.dispatch`) and the `substitute` step of
`tuneNullopt` (applied by `WasmBackend.dispatch`) are semantics-preserving
per spec §4.1/§4.3 and are omitted from the evaluation pipeline. -/

namespace Alu

/-- Binary ALU operations used by the embedded kernels. -/
inductive AluOp where
  | add
  | sub
  | mul
  | idiv
  | modOp
  | minOp
  | maxOp
deriving DecidableEq, Repr

/-- Semantics of a binary ALU op on scalars. -/
def applyOp : AluOp → Int → Int → Int
  | .add, x, y => x + y
  | .sub, x, y => x - y
  | .mul, x, y => x * y
  | .idiv, x, y => Int.tdiv x y
  | .modOp, x, y => Int.tmod x y
  | .minOp, x, y => min x y
  | .maxOp, x, y => max x y

/-- Modelled from the spec: ALU expression nodes (constants, named specials
with a size, binary ops, `GlobalIndex` reads of input `gid` at a computed
linear index). -/
inductive AluExp where
  | const (v : Int)
  | special (name : String) (size : Nat)
  | binop (op : AluOp) (a b : AluExp)
  | globalIndex (gid : Nat) (idx : AluExp)
  | globalView (gid : Nat) (st : Shape.View) (srcs : List AluExp)

mutual

/-- Structural equality test on ALU expressions. -/
def beqE : AluExp → AluExp → Bool
  | .const v, .const w => v == w
  | .special n s, .special n' s' => n == n' && s == s'
  | .binop o a b, .binop o' a' b' => o == o' && beqE a a' && beqE b b'
  | .globalIndex g i, .globalIndex g' i' => g == g' && beqE i i'
  | .globalView g st src, .globalView g' st' src' =>
      g == g' && decide (st = st') && beqL src src'
  | _, _ => false

/-- Structural equality test on lists of ALU expressions. -/
def beqL : List AluExp → List AluExp → Bool
  | [], [] => true
  | x :: xs, y :: ys => beqE x y && beqL xs ys
  | _, _ => false

end

mutual

theorem beqE_iff : (a b : AluExp) → (beqE a b = true ↔ a = b)
  | .const v, .const w => by simp [beqE]
  | .const _, .special .. => by simp [beqE]
  | .const _, .binop .. => by simp [beqE]
  | .const _, .globalIndex .. => by simp [beqE]
  | .const _, .globalView .. => by simp [beqE]
  | .special .., .const _ => by simp [beqE]
  | .special n s, .special n' s' => by simp [beqE]
  | .special .., .binop .. => by simp [beqE]
  | .special .., .globalIndex .. => by simp [beqE]
  | .special .., .globalView .. => by simp [beqE]
  | .binop .., .const _ => by simp [beqE]
  | .binop .., .special .. => by simp [beqE]
  | .binop o a b, .binop o' a' b' => by
      simp [beqE, beqE_iff a a', beqE_iff b b', and_assoc]
  | .binop .., .globalIndex .. => by simp [beqE]
  | .binop .., .globalView .. => by simp [beqE]
  | .globalIndex .., .const _ => by simp [beqE]
  | .globalIndex .., .special .. => by simp [beqE]
  | .globalIndex .., .binop .. => by simp [beqE]
  | .globalIndex g i, .globalIndex g' i' => by
      simp [beqE, beqE_iff i i']
  | .globalIndex .., .globalView .. => by simp [beqE]
  | .globalView .., .const _ => by simp [beqE]
  | .globalView .., .special .. => by simp [beqE]
  | .globalView .., .binop .. => by simp [beqE]
  | .globalView .., .globalIndex .. => by simp [beqE]
  | .globalView g st src, .globalView g' st' src' => by
      simp [beqE, beqL_iff src src', and_assoc]

theorem beqL_iff : (xs ys : List AluExp) → (beqL xs ys = true ↔ xs = ys)
  | [], [] => by simp [beqL]
  | [], _ :: _ => by simp [beqL]
  | _ :: _, [] => by simp [beqL]
  | x :: xs, y :: ys => by
      simp [beqL, beqE_iff x y, beqL_iff xs ys]

end

instance : DecidableEq AluExp := fun a b =>
  if h : beqE a b = true then .isTrue ((beqE_iff a b).mp h)
  else .isFalse fun he => h ((beqE_iff a b).mpr he)

/-- Modelled from the spec: the tree-walk evaluator `evaluate(vars, globals)`
of alu.ts; a missing special or an out-of-range global read fails. -/
def evaluate (vars : String → Option Int) (globals : Nat → Nat → Option Int) :
    AluExp → Option Int
  | .const v => some v
  | .special name _ => vars name
  | .binop op a b => do
      let x ← evaluate vars globals a
      let y ← evaluate vars globals b
      pure (applyOp op x y)
  | .globalIndex gid idx => do
      let i ← evaluate vars globals idx
      if i < 0 then none else globals gid i.toNat
  | .globalView _ _ _ => none

/-- Identity element of a reduction op (spec §7: reductions over empty axes
yield the reduction identity; int32 identities for min/max). -/
def identityOf : AluOp → Int
  | .add => 0
  | .mul => 1
  | .maxOp => -2147483648
  | .minOp => 2147483647
  | .sub => 0
  | .idiv => 0
  | .modOp => 0

/-- Reduction descriptor of a kernel: op, length, optional fused epilogue
over `acc` (a missing epilogue defaults to the identity expression
`AluVar.acc`, modelled from the spec). -/
structure Reduction where
  op : AluOp
  size : Nat
  fusion : Option AluExp := none
deriving DecidableEq

/-- Kernel bundle (spec §3): distinct-input count, output element count,
ALU expression, optional reduction descriptor. -/
structure Kernel where
  numInputs : Nat
  size : Nat
  exp : AluExp
  reduction : Option Reduction := none
deriving DecidableEq

/-- The `globals` callback both dispatchers build over the input buffers:
`(gid, bufidx) => inputArrays[gid][bufidx]`. -/
def globalsOf (inputs : List (List Int)) : Nat → Nat → Option Int :=
  fun gid i => (inputs.get? gid).bind fun buf => buf.get? i

/-- Embedding of `CPUBackend.dispatch` (src/backend/cpu.ts lines 64–76): it
loops `i` over `kernel.size` and evaluates the ALU expression with only
`gidx` bound; the reduction descriptor is never consulted. -/
def cpuDispatch (kernel : Kernel) (inputs : List (List Int)) :
    List (Option Int) :=
  (List.range kernel.size).map fun i =>
    evaluate (fun n => if n = "gidx" then some i else none)
      (globalsOf inputs) kernel.exp

/-- Embedding of the `WasmBackend.dispatch` interpreter loop (part of the
repository whose file name is unknown): without a reduction it evaluates the
expression per output index; with a reduction it starts from the identity,
folds `reduction.size` items over `ridx` via the reduction op, and applies
the fused epilogue to the accumulator. -/
def wasmDispatch (kernel : Kernel) (inputs : List (List Int)) :
    List (Option Int) :=
  match kernel.reduction with
  | none =>
      (List.range kernel.size).map fun i =>
        evaluate (fun n => if n = "gidx" then some i else none)
          (globalsOf inputs) kernel.exp
  | some red =>
      (List.range kernel.size).map fun i =>
        let acc := (List.range red.size).foldl
          (fun acc j => do
            let a ← acc
            let item ← evaluate
              (fun n => if n = "gidx" then some i
                        else if n = "ridx" then some j else none)
              (globalsOf inputs) kernel.exp
            pure (applyOp red.op a item))
          (some (identityOf red.op))
        acc.bind fun a =>
          evaluate (fun n => if n = "acc" then some a else none)
            (globalsOf inputs)
            (red.fusion.getD (.special "acc" 0))

/-- The reduction kernel of the repository's own cross-backend test
"performs reduction": sum pairs of a `[3,2]` input, i.e.
`exp = GlobalIndex(0, gidx*2 + ridx)` with `Reduction(Add, 2)`. -/
def reductionKernel : Kernel :=
  { numInputs := 1
    size := 3
    exp := .globalIndex 0
      (.binop .add (.binop .mul (.special "gidx" 3) (.const 2))
        (.special "ridx" 2))
    reduction := some { op := .add, size := 2 } }

/-- The test input `[1, 1, 2, 3, 5, 7]`. -/
def reductionInput : List Int := [1, 1, 2, 3, 5, 7]

end Alu

/-- C1 (failing-input evaluation): on the reduction kernel of the
cross-backend test suite, the WASM interpreter loop folds `ridx` and
produces `[2, 5, 12]`, while `CPUBackend.dispatch` never consults the
reduction descriptor: it evaluates the expression with only `gidx` bound,
which hits the unbound `ridx` special (a fatal evaluation error) on every
output element, so its result differs from the WASM result. -/
theorem cpuDispatch_ignores_reduction :
    Alu.cpuDispatch Alu.reductionKernel [Alu.reductionInput] =
      [none, none, none] ∧
    Alu.wasmDispatch Alu.reductionKernel [Alu.reductionInput] =
      [some 2, some 5, some 12] ∧
    Alu.cpuDispatch Alu.reductionKernel [Alu.reductionInput] ≠
      Alu.wasmDispatch Alu.reductionKernel [Alu.reductionInput] := by
  refine ⟨rfl, rfl, ?_⟩
  decide

/-! ## Frontend arrays and lazy scheduling (C2, C4)

Embedding of the `Array` / `PendingExecute` frontend (a repository file
whose name is unknown; `Array.#binary`, `Array.#realize`, `Array.data` /
`Array.dataSync`, `PendingExecute.submit`).  JS object identity of shared
mutable `PendingExecute`s is modelled by a store indexed by creation order
(`pid`); the JS `Set` held by each handle becomes a duplicate-free pid list
in insertion order.  The backend slot table reuses `RefBackend.State`
(identical in cpu.ts and the WASM backend); dispatches are recorded in an
observation log `dispatchLog`.  Shape trackers of the handles modelled here
are the contiguous `fromShape` trackers the frontend constructors build
(shape.ts is absent; `accessorGlobal(gid, st, gidx)` reads input `gid` at
the identity linear index for such trackers, and `accessorAluExp` is the
identity substitution).  A `stContig` flag records contiguity for
`#realize`; the reindex expression of a non-contiguous view is not needed
by any statement below. -/

namespace Frontend

/-- Scalar dtypes carried by frontend handles. -/
inductive DTypeF where
  | f32
  | i32
  | u32
  | boolDt
deriving DecidableEq, Repr

/-- A `PendingExecute`: kernel, input/output slots, `prepared` and
`submitted` flags (`prepared` abstracts the `Executable` being present). -/
structure PendingExec where
  kernel : Alu.Kernel
  inputs : List Nat
  outputs : List Nat
  prepared : Bool := false
  submitted : Bool := false
deriving DecidableEq

/-- Frontend runtime state: the `PendingExecute` store (JS heap) indexed by
creation order, the backend slot table, and the observation log of
`backend.dispatch` calls `(pid, inputs, outputs)`. -/
structure FState where
  pends : List (Nat × PendingExec)
  nextPid : Nat
  bstate : RefBackend.State
  dispatchLog : List (Nat × List Nat × List Nat)
deriving DecidableEq

/-- Look up a `PendingExecute` in the store. -/
def FState.pend (s : FState) (pid : Nat) : Option PendingExec :=
  s.pends.lookup pid

/-- Replace a `PendingExecute` in the store. -/
def FState.setPend (s : FState) (pid : Nat) (p : PendingExec) : FState :=
  { s with pends := s.pends.map fun q => if q.1 = pid then (pid, p) else q }

/-- An `Array` handle: shape, dtype, source (ALU expression or slot),
shape-tracker shape with a contiguity flag, and the pending set. -/
structure ArrayH where
  shape : List Nat
  dtype : DTypeF
  source : Alu.AluExp ⊕ Nat
  stShape : List Nat
  stContig : Bool
  pendingSet : List Nat
deriving DecidableEq

/-- Number of elements of a tracker shape (`st.size`). -/
def sizeOf' (shape : List Nat) : Nat := shape.foldl (· * ·) 1

/-- JS `Set` construction from a list: keep the first occurrence of each
element, in insertion order. -/
def mkSet (l : List Nat) : List Nat :=
  l.foldl (fun acc x => if x ∈ acc then acc else acc ++ [x]) []

/-- The `get #pending` accessor: the pending entries of a handle, trimming
those already observed as submitted. -/
def pendingOf (s : FState) (a : ArrayH) : List Nat :=
  a.pendingSet.filter fun pid =>
    match s.pend pid with
    | some p => ! p.submitted
    | none => false

/-- Embedding of `PendingExecute.submit(backend)`: a no-op if `submitted`
is set; an error if not prepared; otherwise it calls `backend.dispatch`.
NOTE (faithful to the source): the `submitted` flag is never set. -/
def submitP (s : FState) (pid : Nat) : Option FState :=
  match s.pend pid with
  | none => none
  | some p =>
      if p.submitted then some s
      else if ! p.prepared then none
      else some { s with dispatchLog := s.dispatchLog ++ [(pid, p.inputs, p.outputs)] }

/-- Embedding of `PendingExecute.prepareSync(backend)`: record the compiled
executable (a no-op when already prepared). -/
def prepareSyncP (s : FState) (pid : Nat) : FState :=
  match s.pend pid with
  | none => s
  | some p =>
      if p.prepared then s
      else s.setPend pid { p with prepared := true }

/-- Embedding of `Array.#realize()`: materialize an ALU-expression source
into a kernel with no inputs writing a fresh buffer, or reindex a
non-contiguous buffer source through a one-input copy kernel; a contiguous
buffer source is left unchanged. -/
def realize (s : FState) (a : ArrayH) : FState × ArrayH :=
  match a.source with
  | .inl exp =>
      let kernel : Alu.Kernel := ⟨0, sizeOf' a.stShape, exp, none⟩
      match RefBackend.malloc s.bstate (kernel.size * 4) none with
      | .ok (slot, b') =>
          let pe : PendingExec := ⟨kernel, [], [slot], false, false⟩
          ({ s with
              pends := s.pends ++ [(s.nextPid, pe)]
              nextPid := s.nextPid + 1
              bstate := b' },
            { a with
              source := .inr slot
              stShape := a.shape
              stContig := true
              pendingSet := [s.nextPid] })
      | _ => (s, a)
  | .inr slot =>
      if a.stContig then (s, a)
      else
        let kernel : Alu.Kernel :=
          ⟨1, sizeOf' a.stShape, .globalIndex 0 (.special "gidx" (sizeOf' a.stShape)), none⟩
        match RefBackend.malloc s.bstate (kernel.size * 4) none with
        | .ok (slot', b') =>
            let pe : PendingExec := ⟨kernel, [slot], [slot'], false, false⟩
            ({ s with
                pends := s.pends ++ [(s.nextPid, pe)]
                nextPid := s.nextPid + 1
                bstate := b' },
              { a with
                source := .inr slot'
                stShape := a.shape
                stContig := true
                pendingSet := a.pendingSet ++ [s.nextPid] })
        | _ => (s, a)

/-- Embedding of `Array.dataSync()`: realize, then for each (trimmed)
pending executable `prepareSync` and `submit` it in recorded order, then
read the backing slot.  Returns the final state, the handle as mutated in
place, and the slot read. -/
def dataSync (s : FState) (a : ArrayH) : Option (FState × ArrayH × Nat) :=
  let (s1, a1) := realize s a
  let pids := pendingOf s1 a1
  let a2 := { a1 with pendingSet := pids }
  let step := fun (acc : Option FState) pid =>
    acc.bind fun st =>
      submitP (prepareSyncP st pid) pid
  match pids.foldl step (some s1) with
  | none => none
  | some s2 =>
      match a2.source with
      | .inr slot =>
          match RefBackend.readSync s2.bstate slot with
          | .ok _ => some (s2, a2, slot)
          | _ => none
      | .inl _ => none

/-- Embedding of `Array.#binary(op, other)`: identical shape and dtype are
required; if both sources are ALU expressions the result is the fused lazy
expression; otherwise a kernel over the at-most-two input slots is created,
one output buffer is allocated, and one unsubmitted `PendingExecute` is
appended, the result handle carrying
`union(pending(this), pending(other)) ∪ {new}`. -/
def binary (s : FState) (op : Alu.AluOp) (a b : ArrayH) :
    Option (FState × ArrayH) :=
  if a.shape ≠ b.shape then none
  else if a.dtype ≠ b.dtype then none
  else
    match a.source, b.source with
    | .inl e1, .inl e2 =>
        some (s, ⟨a.shape, a.dtype, .inl (.binop op e1 e2), a.stShape,
          a.stContig, []⟩)
    | sa, sb =>
        let gidx : Alu.AluExp := .special "gidx" (sizeOf' a.stShape)
        let step := fun (acc : List Nat × List Alu.AluExp) (src : Alu.AluExp ⊕ Nat) =>
          match src with
          | .inl e => (acc.1, acc.2 ++ [e])
          | .inr slot => (acc.1 ++ [slot], acc.2 ++ [.globalIndex acc.1.length gidx])
        let (inputs, srcs) := [sa, sb].foldl step ([], [])
        let kernel : Alu.Kernel :=
          ⟨srcs.length, sizeOf' a.stShape, .binop op (srcs.getD 0 (.const 0)) (srcs.getD 1 (.const 0)), none⟩
        match RefBackend.malloc s.bstate (kernel.size * 4) none with
        | .ok (slot, b') =>
            let pe : PendingExec := ⟨kernel, inputs, [slot], false, false⟩
            some
              ({ s with
                  pends := s.pends ++ [(s.nextPid, pe)]
                  nextPid := s.nextPid + 1
                  bstate := b' },
                ⟨a.shape, a.dtype, .inr slot, a.shape, true,
                  mkSet (pendingOf s a ++ pendingOf s b ++ [s.nextPid])⟩)
        | _ => none

end Frontend

/-! ### C2: draining of the pending set -/

namespace Frontend

/-- Backend table for the C2 scenario: an input slot 1 and an output
slot 2, both live with refcount 1. -/
def c2Backend : RefBackend.State :=
  ⟨[(1, ⟨1, [0, 0, 0, 0]⟩), (2, ⟨1, [0, 0, 0, 0]⟩)], 3⟩

/-- A single pending executable (pid 0): a one-element copy kernel from
slot 1 into slot 2, not yet prepared or submitted. -/
def c2Pending : PendingExec :=
  ⟨⟨1, 1, .globalIndex 0 (.special "gidx" 1), none⟩, [1], [2], false, false⟩

/-- Frontend state for the C2 scenario. -/
def c2State : FState := ⟨[(0, c2Pending)], 1, c2Backend, []⟩

/-- A handle backed by slot 2 with pid 0 pending. -/
def c2Array : ArrayH := ⟨[1], .f32, .inr 2, [1], true, [0]⟩

/-- The state after the first `dataSync`: pid 0 is prepared and was
dispatched once, but its `submitted` flag is still `false`. -/
def c2State1 : FState :=
  ⟨[(0, ⟨⟨1, 1, .globalIndex 0 (.special "gidx" 1), none⟩, [1], [2], true, false⟩)],
    1, c2Backend, [(0, [1], [2])]⟩

/-- The state after the second `dataSync`: pid 0 was dispatched a second
time. -/
def c2State2 : FState :=
  ⟨[(0, ⟨⟨1, 1, .globalIndex 0 (.special "gidx" 1), none⟩, [1], [2], true, false⟩)],
    1, c2Backend, [(0, [1], [2]), (0, [1], [2])]⟩

end Frontend

/-- C2 (failing-input evaluation): `PendingExecute.submit` never sets the
`submitted` flag, so after `dataSync()` returns, the dispatched executable
is still not observed as submitted, it is not removed from the pending set
on the next inspection, and a second `dataSync()` on the same handle
dispatches the same executable to the backend again (the dispatch log
receives pid 0 twice), contradicting the claim. -/
theorem dataSync_redispatches_pending :
    Frontend.dataSync Frontend.c2State Frontend.c2Array =
      some (Frontend.c2State1, Frontend.c2Array, 2) ∧
    (Frontend.c2State1.pend 0).map (fun p => p.submitted) = some false ∧
    Frontend.pendingOf Frontend.c2State1 Frontend.c2Array = [0] ∧
    Frontend.dataSync Frontend.c2State1 Frontend.c2Array =
      some (Frontend.c2State2, Frontend.c2Array, 2) ∧
    Frontend.c2State2.dispatchLog = [(0, [1], [2]), (0, [1], [2])] := by
  refine ⟨by decide, by decide, by decide, by decide, by decide⟩

/-! ### C4: the binary element-wise operation -/

namespace Frontend

theorem lookup_fresh_pend {α : Type} (l : List (Nat × α)) (n : Nat)
    (h : ∀ p ∈ l, p.1 < n) : l.lookup n = none := by
  induction l with
  | nil => rfl
  | cons p rest ih =>
      have hp := h p (List.mem_cons_self p rest)
      have hbeq : (n == p.1) = false := by
        simp only [beq_eq_false_iff_ne, ne_eq]
        omega
      simp only [List.lookup, hbeq]
      exact ih fun q hq => h q (List.mem_cons_of_mem p hq)

theorem mem_mkSet_aux (l acc : List Nat) (x : Nat) :
    x ∈ l.foldl (fun acc y => if y ∈ acc then acc else acc ++ [y]) acc ↔
      x ∈ acc ∨ x ∈ l := by
  induction l generalizing acc with
  | nil => simp
  | cons y rest ih =>
      simp only [List.foldl_cons, ih, List.mem_cons]
      by_cases hy : y ∈ acc
      · simp only [if_pos hy]
        constructor
        · rintro (h | h)
          · exact Or.inl h
          · exact Or.inr (Or.inr h)
        · rintro (h | h | h)
          · exact Or.inl h
          · exact Or.inl (h ▸ hy)
          · exact Or.inr h
      · simp only [if_neg hy, List.mem_append, List.mem_singleton]
        tauto

theorem mem_mkSet (l : List Nat) (x : Nat) : x ∈ mkSet l ↔ x ∈ l := by
  unfold mkSet
  rw [mem_mkSet_aux]
  simp

/-- Frontend well-formedness: stored pids are below `nextPid` and the
backend table is well-formed. -/
def WFState (s : FState) : Prop :=
  (∀ p ∈ s.pends, p.1 < s.nextPid) ∧ RefBackend.WF s.bstate

instance : DecidablePred WFState := fun s => by
  unfold WFState RefBackend.WF
  infer_instance

end Frontend

/-- C4: for two handles with identical shape and dtype, `#binary` returns
the fused lazy ALU expression with the state unchanged (no kernel, no
allocation) when both sources are expressions; otherwise it returns a
handle backed by exactly one newly allocated output buffer together with
exactly one new, not-yet-submitted `PendingExecute` whose inputs are
among the (at most two) operand buffers, and the result's pending set is
the union of both operands' pending sets plus the new entry. -/
theorem binary_spec (s : Frontend.FState) (op : Alu.AluOp)
    (a b : Frontend.ArrayH) (hwf : Frontend.WFState s)
    (hsh : a.shape = b.shape) (hdt : a.dtype = b.dtype) :
    (∀ e1 e2, a.source = .inl e1 → b.source = .inl e2 →
      Frontend.binary s op a b =
        some (s, ⟨a.shape, a.dtype, .inl (.binop op e1 e2), a.stShape,
          a.stContig, []⟩)) ∧
    ((∀ e1 e2, ¬(a.source = .inl e1 ∧ b.source = .inl e2)) →
      ∃ s' res, Frontend.binary s op a b = some (s', res) ∧
        s.bstate.get s.bstate.nextSlot = none ∧
        s'.bstate.nextSlot = s.bstate.nextSlot + 1 ∧
        s'.bstate.get s.bstate.nextSlot =
          some ⟨1, List.replicate (Frontend.sizeOf' a.stShape * 4) 0⟩ ∧
        res.source = .inr s.bstate.nextSlot ∧
        s.pend s.nextPid = none ∧
        s'.nextPid = s.nextPid + 1 ∧
        (∃ pe, s'.pends = s.pends ++ [(s.nextPid, pe)] ∧
          pe.submitted = false ∧ pe.prepared = false ∧
          pe.outputs = [s.bstate.nextSlot] ∧
          pe.inputs.length ≤ 2 ∧
          (∀ sl ∈ pe.inputs, a.source = .inr sl ∨ b.source = .inr sl)) ∧
        (∀ pid, pid ∈ res.pendingSet ↔
          pid ∈ Frontend.pendingOf s a ∨ pid ∈ Frontend.pendingOf s b ∨
            pid = s.nextPid)) := by
  obtain ⟨hpid, hbwf⟩ := hwf
  have hshne : ¬(a.shape ≠ b.shape) := by simp [hsh]
  have hdtne : ¬(a.dtype ≠ b.dtype) := by simp [hdt]
  have hfreshSlot : s.bstate.get s.bstate.nextSlot = none :=
    RefBackend.lookup_fresh s.bstate.buffers s.bstate.nextSlot hbwf.1
  have hfreshPid : s.pend s.nextPid = none :=
    Frontend.lookup_fresh_pend s.pends s.nextPid hpid
  have hget : ∀ sz,
      (RefBackend.State.mk (s.bstate.buffers ++ [(s.bstate.nextSlot, ⟨1, List.replicate sz 0⟩)])
        (s.bstate.nextSlot + 1)).get s.bstate.nextSlot =
        some ⟨1, List.replicate sz 0⟩ := fun sz =>
    RefBackend.lookup_append_self s.bstate.buffers s.bstate.nextSlot _ hfreshSlot
  constructor
  · intro e1 e2 h1 h2
    unfold Frontend.binary
    rw [if_neg hshne, if_neg hdtne, h1, h2]
  · intro hnotboth
    unfold Frontend.binary
    rw [if_neg hshne, if_neg hdtne]
    rcases ha : a.source with e1 | sl1 <;> rcases hb : b.source with e2 | sl2
    · exact absurd ⟨ha, hb⟩ (hnotboth e1 e2)
    · refine ⟨_, _, rfl, hfreshSlot, rfl, hget _, rfl, hfreshPid, rfl, ?_, ?_⟩
      · refine ⟨_, rfl, rfl, rfl, rfl, by norm_num, ?_⟩
        intro sl hsl
        simp only [List.nil_append, List.mem_singleton] at hsl
        refine Or.inr ?_
        rw [hsl]
      · intro pid
        simp [Frontend.mem_mkSet, List.mem_append, or_assoc]
    · refine ⟨_, _, rfl, hfreshSlot, rfl, hget _, rfl, hfreshPid, rfl, ?_, ?_⟩
      · refine ⟨_, rfl, rfl, rfl, rfl, by norm_num, ?_⟩
        intro sl hsl
        simp only [List.nil_append, List.mem_singleton] at hsl
        refine Or.inl ?_
        rw [hsl]
      · intro pid
        simp [Frontend.mem_mkSet, List.mem_append, or_assoc]
    · refine ⟨_, _, rfl, hfreshSlot, rfl, hget _, rfl, hfreshPid, rfl, ?_, ?_⟩
      · refine ⟨_, rfl, rfl, rfl, rfl, by norm_num, ?_⟩
        intro sl hsl
        simp only [List.nil_append, List.mem_append, List.mem_singleton] at hsl
        rcases hsl with h | h
        · refine Or.inl ?_
          rw [h]
        · refine Or.inr ?_
          rw [h]
      · intro pid
        simp [Frontend.mem_mkSet, List.mem_append, or_assoc]

/-! ### C4 witness data -/

namespace Frontend

/-- Witness state for C4: one live slot, empty pending store. -/
def c4S : FState := ⟨[], 0, ⟨[(1, ⟨1, [0, 0, 0, 0, 0, 0, 0, 0]⟩)], 2⟩, []⟩

/-- Witness operand backed by slot 1. -/
def c4A : ArrayH := ⟨[2], .f32, .inr 1, [2], true, []⟩

/-- Witness operand with a lazy constant expression source. -/
def c4B : ArrayH := ⟨[2], .f32, .inl (.const 2), [2], true, []⟩

end Frontend

/-- Witness for C4 applying `binary_spec` to a slot-backed operand and a
lazy operand over a concrete one-slot state. -/
theorem binary_spec_witness :
    (Frontend.WFState Frontend.c4S ∧ Frontend.c4A.shape = Frontend.c4B.shape ∧
      Frontend.c4A.dtype = Frontend.c4B.dtype) ∧
    ((∀ e1 e2, Frontend.c4A.source = .inl e1 → Frontend.c4B.source = .inl e2 →
      Frontend.binary Frontend.c4S .add Frontend.c4A Frontend.c4B =
        some (Frontend.c4S, ⟨Frontend.c4A.shape, Frontend.c4A.dtype,
          .inl (.binop .add e1 e2), Frontend.c4A.stShape,
          Frontend.c4A.stContig, []⟩)) ∧
    ((∀ e1 e2, ¬(Frontend.c4A.source = .inl e1 ∧ Frontend.c4B.source = .inl e2)) →
      ∃ s' res, Frontend.binary Frontend.c4S .add Frontend.c4A Frontend.c4B =
          some (s', res) ∧
        Frontend.c4S.bstate.get Frontend.c4S.bstate.nextSlot = none ∧
        s'.bstate.nextSlot = Frontend.c4S.bstate.nextSlot + 1 ∧
        s'.bstate.get Frontend.c4S.bstate.nextSlot =
          some ⟨1, List.replicate (Frontend.sizeOf' Frontend.c4A.stShape * 4) 0⟩ ∧
        res.source = .inr Frontend.c4S.bstate.nextSlot ∧
        Frontend.c4S.pend Frontend.c4S.nextPid = none ∧
        s'.nextPid = Frontend.c4S.nextPid + 1 ∧
        (∃ pe, s'.pends = Frontend.c4S.pends ++ [(Frontend.c4S.nextPid, pe)] ∧
          pe.submitted = false ∧ pe.prepared = false ∧
          pe.outputs = [Frontend.c4S.bstate.nextSlot] ∧
          pe.inputs.length ≤ 2 ∧
          (∀ sl ∈ pe.inputs, Frontend.c4A.source = .inr sl ∨
            Frontend.c4B.source = .inr sl)) ∧
        (∀ pid, pid ∈ res.pendingSet ↔
          pid ∈ Frontend.pendingOf Frontend.c4S Frontend.c4A ∨
          pid ∈ Frontend.pendingOf Frontend.c4S Frontend.c4B ∨
            pid = Frontend.c4S.nextPid))) :=
  ⟨⟨by decide, rfl, rfl⟩,
    binary_spec Frontend.c4S .add Frontend.c4A Frontend.c4B (by decide) rfl rfl⟩

/-! ## Safetensors loader (C8)

Embedding of `parse` from the safetensors companion loader (a repository
file whose name is unknown).  The input is a byte list (the `ArrayBuffer`
case, `ptr = 0`).  `JSON.parse` is external; it is passed in as a decoding
function from the header bytes to the header object, `none` standing for a
JSON syntax error.  A typed-array view over the byte range
`[8+N+start, 8+N+end)` is represented by the dtype tag together with the
raw bytes of that range. -/

namespace Safetensors

/-- Generic association-list lookup, first match wins (JS property read). -/
def alookup {κ β : Type} [DecidableEq κ] (k : κ) : List (κ × β) → Option β
  | [] => none
  | p :: rest => if p.1 = k then some p.2 else alookup k rest

/-- One tensor descriptor of the JSON header:
`{ dtype, shape, data_offsets: [start, end] }`. -/
structure TensorEntry where
  dtype : String
  shape : List Nat
  dataOffsets : Nat × Nat
deriving DecidableEq, Repr

/-- A JSON header value: either the `__metadata__` string map or a tensor
descriptor. -/
inductive HVal where
  | meta (kv : List (String × String))
  | tensor (t : TensorEntry)
deriving DecidableEq, Repr

/-- A parsed tensor: dtype and shape from the header entry, and the raw
bytes of its data range (interpreted under the dtype). -/
structure Tensor where
  dtype : String
  shape : List Nat
  data : List Nat
deriving DecidableEq, Repr

/-- The parse result `{ tensors, metadata?, totalSize }`. -/
structure File where
  tensors : List (String × Tensor)
  metadata : Option (List (String × String))
  totalSize : Nat
deriving DecidableEq, Repr

/-- Bytes per element of each supported safetensors dtype; `none` for an
unsupported dtype (the `default:` throw of the switch). -/
def itemSize : String → Option Nat
  | "F16" => some 2
  | "F32" => some 4
  | "F64" => some 8
  | "I8" => some 1
  | "I16" => some 2
  | "I32" => some 4
  | "I64" => some 8
  | "U8" => some 1
  | "U16" => some 2
  | "U32" => some 4
  | "U64" => some 8
  | "BOOL" => some 1
  | _ => none

/-- Little-endian unsigned integer value of a byte list
(`view.getBigUint64(0, true)` reads 8 bytes this way). -/
def leU64 : List Nat → Nat
  | [] => 0
  | b :: rest => b + 256 * leU64 rest

/-- JS object property write: update the first entry with the key in place,
else append. -/
def upsert {β : Type} (l : List (String × β)) (k : String) (v : β) :
    List (String × β) :=
  if l.any (fun p => p.1 = k) then
    l.map fun p => if p.1 = k then (k, v) else p
  else l ++ [(k, v)]

/-- Processing of one header entry by the loop of `parse`: `__metadata__`
is stored as metadata; otherwise the dtype selects an element size (an
unknown dtype throws), and a typed-array view over bytes
`[base+start, base+end)` is taken (a start offset that is not a multiple
of the element size, a negative length, a fractional element count, or an
out-of-range view throws a `RangeError`; the offset check comes first in
the typed-array constructor). -/
def processEntry (base len : Nat) (data : List Nat) (acc : File)
    (kv : String × HVal) : Except String File :=
  if kv.1 = "__metadata__" then
    match kv.2 with
    | .meta mv => .ok { acc with metadata := some mv }
    | .tensor _ => .ok { acc with metadata := none }
  else
    match kv.2 with
    | .meta _ => .error "Unsupported dtype"
    | .tensor t =>
        let start := t.dataOffsets.1
        let stop := t.dataOffsets.2
        match itemSize t.dtype with
        | none => .error ("Unsupported dtype: " ++ t.dtype)
        | some sz =>
            if (base + start) % sz ≠ 0 then
              .error "start offset should be a multiple of the element size"
            else if stop < start then .error "invalid typed array length"
            else if (stop - start) % sz ≠ 0 then .error "invalid typed array length"
            else if len < base + stop then .error "typed array out of range"
            else .ok { acc with
              tensors := upsert acc.tensors kv.1
                ⟨t.dtype, t.shape, (data.drop (base + start)).take (stop - start)⟩ }

/-- Embedding of `parse(data)`: bytes 0..7 are the little-endian header
length `N`; it must not exceed `len - 8`; bytes 8..8+N decode as the JSON
header; each header entry then yields a tensor (or metadata). -/
def parse (jsonParse : List Nat → Option (List (String × HVal)))
    (data : List Nat) : Except String File :=
  if data.length < 8 then
    .error "Data too short to be a valid safetensors file"
  else
    let n := leU64 (data.take 8)
    if data.length - 8 < n then .error "Invalid header size"
    else
      match jsonParse ((data.drop 8).take n) with
      | none => .error "Failed to parse safetensors header as JSON"
      | some header =>
          header.foldlM (processEntry (8 + n) data.length data)
            ⟨[], none, data.length⟩

/-- A header entry the per-entry processing accepts: either metadata, or a
tensor with a supported dtype whose view start `base + start` is aligned
to the element size and whose data range is well-formed and inside the
input. -/
def GoodEntry (base len : Nat) (kv : String × HVal) : Prop :=
  kv.1 = "__metadata__" ∨
    match kv.2 with
    | .meta _ => False
    | .tensor t =>
        (itemSize t.dtype).isSome ∧
        (base + t.dataOffsets.1) % (itemSize t.dtype).getD 1 = 0 ∧
        t.dataOffsets.1 ≤ t.dataOffsets.2 ∧
        (t.dataOffsets.2 - t.dataOffsets.1) % (itemSize t.dtype).getD 1 = 0 ∧
        base + t.dataOffsets.2 ≤ len

instance (base len : Nat) : ∀ kv, Decidable (GoodEntry base len kv)
  | (k, .meta _) => decidable_of_iff (k = "__metadata__" ∨ False) Iff.rfl
  | (k, .tensor t) =>
      decidable_of_iff (k = "__metadata__" ∨
        ((itemSize t.dtype).isSome ∧
          (base + t.dataOffsets.1) % (itemSize t.dtype).getD 1 = 0 ∧
          t.dataOffsets.1 ≤ t.dataOffsets.2 ∧
          (t.dataOffsets.2 - t.dataOffsets.1) % (itemSize t.dtype).getD 1 = 0 ∧
          base + t.dataOffsets.2 ≤ len)) Iff.rfl

/-- The tensor produced for a good header entry. -/
def madeTensor (base : Nat) (data : List Nat) (t : TensorEntry) : Tensor :=
  ⟨t.dtype, t.shape, (data.drop (base + t.dataOffsets.1)).take
    (t.dataOffsets.2 - t.dataOffsets.1)⟩

theorem alookup_map_set {β : Type} (l : List (String × β)) (k : String) (v : β)
    (h : l.any (fun p => p.1 = k) = true) :
    alookup k (l.map fun p => if p.1 = k then (k, v) else p) = some v := by
  induction l with
  | nil => simp at h
  | cons p rest ih =>
      simp only [List.map_cons]
      by_cases hk : p.1 = k
      · rw [if_pos hk]
        simp [alookup]
      · rw [if_neg hk]
        simp only [alookup, if_neg hk]
        apply ih
        simp only [List.any_cons, decide_eq_true_eq, Bool.or_eq_true] at h
        rcases h with h | h
        · exact absurd h hk
        · simpa using h

theorem alookup_none_of_any_false {β : Type} (l : List (String × β)) (k : String)
    (h : l.any (fun p => p.1 = k) = false) : alookup k l = none := by
  induction l with
  | nil => rfl
  | cons p rest ih =>
      simp only [List.any_cons, Bool.or_eq_false_iff, decide_eq_false_iff_not] at h
      simp only [alookup, if_neg h.1]
      exact ih (by simpa using h.2)

theorem alookup_append_one {β : Type} (l : List (String × β)) (k : String) (v : β)
    (h : alookup k l = none) : alookup k (l ++ [(k, v)]) = some v := by
  induction l with
  | nil => simp [alookup]
  | cons p rest ih =>
      by_cases hk : p.1 = k
      · simp [alookup, hk] at h
      · simp only [alookup, if_neg hk] at h
        simp only [List.cons_append, alookup, if_neg hk]
        exact ih h

theorem alookup_upsert_self {β : Type} (l : List (String × β)) (k : String)
    (v : β) : alookup k (upsert l k v) = some v := by
  unfold upsert
  cases hany : l.any (fun p => p.1 = k) with
  | true =>
      rw [if_pos rfl]
      exact alookup_map_set l k v hany
  | false =>
      rw [if_neg (by simp)]
      exact alookup_append_one l k v (alookup_none_of_any_false l k hany)

theorem alookup_append_ne {β : Type} (l : List (String × β)) (k q : String)
    (v : β) (hq : q ≠ k) : alookup q (l ++ [(k, v)]) = alookup q l := by
  induction l with
  | nil =>
      have hkq : ¬ (k = q) := fun hh => hq hh.symm
      simp [alookup, hkq]
  | cons p rest ih =>
      by_cases hpq : p.1 = q
      · simp [alookup, hpq]
      · simp only [List.cons_append, alookup, if_neg hpq]
        exact ih

theorem alookup_map_set_ne {β : Type} (l : List (String × β)) (k q : String)
    (v : β) (hq : q ≠ k) :
    alookup q (l.map fun p => if p.1 = k then (k, v) else p) = alookup q l := by
  induction l with
  | nil => rfl
  | cons p rest ih =>
      simp only [List.map_cons]
      by_cases hk : p.1 = k
      · rw [if_pos hk]
        have hkq : ¬ (k = q) := fun hh => hq hh.symm
        have hpq : ¬ (p.1 = q) := fun hh => hq (hh ▸ hk)
        simp only [alookup, if_neg hkq, if_neg hpq]
        exact ih
      · rw [if_neg hk]
        by_cases hpq : p.1 = q
        · simp [alookup, hpq]
        · simp only [alookup, if_neg hpq]
          exact ih

theorem alookup_upsert_ne {β : Type} (l : List (String × β)) (k q : String)
    (v : β) (hq : q ≠ k) : alookup q (upsert l k v) = alookup q l := by
  unfold upsert
  cases hany : l.any (fun p => p.1 = k) with
  | true =>
      rw [if_pos rfl]
      exact alookup_map_set_ne l k q v hq
  | false =>
      rw [if_neg (by simp)]
      exact alookup_append_ne l k q v hq

theorem foldl_process_spec (base len : Nat) (data : List Nat) :
    ∀ (header : List (String × HVal)) (acc : File),
    (∀ kv ∈ header, GoodEntry base len kv) →
    ∃ file, header.foldlM (processEntry base len data) acc = .ok file ∧
      (∀ k : String, (∀ v, (k, v) ∉ header) →
        alookup k file.tensors = alookup k acc.tensors) ∧
      ((header.map Prod.fst).Nodup →
        ∀ k t, (k, HVal.tensor t) ∈ header → k ≠ "__metadata__" →
          alookup k file.tensors = some (madeTensor base data t)) := by
  intro header
  induction header with
  | nil =>
      intro acc _
      exact ⟨acc, rfl, fun _ _ => rfl, fun _ _ _ h _ => absurd h (List.not_mem_nil _)⟩
  | cons kv rest ih =>
      rcases kv with ⟨k0, v0⟩
      intro acc hgood
      have hgood0 := hgood (k0, v0) (List.mem_cons_self _ _)
      have hgoodR := fun kv hkv => hgood kv (List.mem_cons_of_mem _ hkv)
      by_cases hmeta : k0 = "__metadata__"
      · -- metadata entry: tensors unchanged
        obtain ⟨acc', hstep, htens⟩ :
            ∃ acc', processEntry base len data acc (k0, v0) = .ok acc' ∧
              acc'.tensors = acc.tensors := by
          cases v0 with
          | meta mv =>
              exact ⟨{ acc with metadata := some mv },
                by simp [processEntry, hmeta], rfl⟩
          | tensor t =>
              exact ⟨{ acc with metadata := none },
                by simp [processEntry, hmeta], rfl⟩
        obtain ⟨file, hfold, hother, hnodup⟩ := ih acc' hgoodR
        refine ⟨file, ?_, ?_, ?_⟩
        · simpa [List.foldlM, hstep] using hfold
        · intro k hk
          have hkr : ∀ v, (k, v) ∉ rest := fun v hv =>
            hk v (List.mem_cons_of_mem _ hv)
          rw [hother k hkr, htens]
        · intro hnd k t hmem hkm
          have hnd2 : (k0 :: rest.map Prod.fst).Nodup := by simpa using hnd
          have hnd' := List.nodup_cons.mp hnd2
          rcases List.mem_cons.mp hmem with h | h
          · exact absurd ((congrArg Prod.fst h).trans hmeta) hkm
          · exact hnodup hnd'.2 k t h hkm
      · -- tensor entry
        rcases hgood0 with h | h
        · exact absurd h hmeta
        · cases v0 with
          | meta mv => simp at h
          | tensor t0 =>
              obtain ⟨hsome, halign, hle, hmod, hrange⟩ := h
              obtain ⟨sz, hsz⟩ := Option.isSome_iff_exists.mp hsome
              have hstep : processEntry base len data acc (k0, .tensor t0) =
                  .ok { acc with
                    tensors := upsert acc.tensors k0 (madeTensor base data t0) } := by
                rw [hsz] at halign hmod
                simp only [Option.getD_some] at halign hmod
                simp [processEntry, hmeta, hsz, madeTensor, halign,
                  Nat.not_lt.mpr hle, hmod, Nat.not_lt.mpr hrange]
              obtain ⟨file, hfold, hother, hnodup⟩ := ih _ hgoodR
              refine ⟨file, ?_, ?_, ?_⟩
              · simpa [List.foldlM, hstep] using hfold
              · intro k hk
                have hk0 : k ≠ k0 := fun hh =>
                  hk (.tensor t0) (hh ▸ List.mem_cons_self _ _)
                have hkr : ∀ v, (k, v) ∉ rest := fun v hv =>
                  hk v (List.mem_cons_of_mem _ hv)
                rw [hother k hkr]
                exact alookup_upsert_ne acc.tensors k0 k _ hk0
              · intro hnd k t hmem hkm
                have hnd2 : (k0 :: rest.map Prod.fst).Nodup := by simpa using hnd
                have hnd' := List.nodup_cons.mp hnd2
                rcases List.mem_cons.mp hmem with h | h
                · have hk : k = k0 := congrArg Prod.fst h
                  have ht : HVal.tensor t = HVal.tensor t0 := congrArg Prod.snd h
                  injection ht with ht
                  subst hk
                  subst ht
                  have hnotrest : ∀ v, (k, v) ∉ rest := fun v hv =>
                    hnd'.1 (by simpa using List.mem_map_of_mem Prod.fst hv)
                  rw [hother k hnotrest]
                  exact alookup_upsert_self acc.tensors k _
                · exact hnodup hnd'.2 k t h hkm

end Safetensors

/-- C8: `parse` reads bytes 0..7 as a little-endian unsigned 64-bit header
length `N`, decodes bytes 8..8+N as the JSON header, and for every header
entry other than `__metadata__` returns a tensor whose shape and dtype come
from the entry and whose data is the byte range `[8+N+start, 8+N+end)` of
the input interpreted under the entry's dtype; it fails when the input is
shorter than 8 bytes, when `N` exceeds the input length minus 8, and when
the header is not valid JSON. -/
theorem safetensors_parse_spec
    (jsonParse : List Nat → Option (List (String × Safetensors.HVal)))
    (data : List Nat) :
    (data.length < 8 →
      Safetensors.parse jsonParse data =
        .error "Data too short to be a valid safetensors file") ∧
    (8 ≤ data.length →
      data.length - 8 < Safetensors.leU64 (data.take 8) →
      Safetensors.parse jsonParse data = .error "Invalid header size") ∧
    (∀ n, 8 ≤ data.length → n = Safetensors.leU64 (data.take 8) →
      n ≤ data.length - 8 →
      jsonParse ((data.drop 8).take n) = none →
      Safetensors.parse jsonParse data =
        .error "Failed to parse safetensors header as JSON") ∧
    (∀ n header, 8 ≤ data.length → n = Safetensors.leU64 (data.take 8) →
      n ≤ data.length - 8 →
      jsonParse ((data.drop 8).take n) = some header →
      (header.map Prod.fst).Nodup →
      (∀ kv ∈ header, Safetensors.GoodEntry (8 + n) data.length kv) →
      ∃ file, Safetensors.parse jsonParse data = .ok file ∧
        ∀ key t, (key, Safetensors.HVal.tensor t) ∈ header →
          key ≠ "__metadata__" →
          Safetensors.alookup key file.tensors = some
            ⟨t.dtype, t.shape,
              (data.drop (8 + n + t.dataOffsets.1)).take
                (t.dataOffsets.2 - t.dataOffsets.1)⟩) := by
  refine ⟨?_, ?_, ?_, ?_⟩
  · intro hshort
    unfold Safetensors.parse
    rw [if_pos hshort]
  · intro hlen hbig
    unfold Safetensors.parse
    rw [if_neg (by omega), if_pos hbig]
  · intro n hlen hn hnle hjson
    unfold Safetensors.parse
    rw [if_neg (by omega)]
    rw [← hn] at *
    rw [if_neg (by omega), hjson]
  · intro n header hlen hn hnle hjson hnodup hgood
    obtain ⟨file, hfold, _, hlook⟩ :=
      Safetensors.foldl_process_spec (8 + n) data.length data header
        ⟨[], none, data.length⟩ hgood
    refine ⟨file, ?_, ?_⟩
    · unfold Safetensors.parse
      rw [if_neg (by omega)]
      rw [← hn]
      rw [if_neg (by omega), hjson]
      exact hfold
    · intro key t hmem hkm
      have := hlook hnodup key t hmem hkm
      simpa [Safetensors.madeTensor] using this

namespace Safetensors

/-- Witness input for C8: header length 1, one header byte, two data
bytes. -/
def c8Data : List Nat := [1, 0, 0, 0, 0, 0, 0, 0, 65, 7, 9]

/-- Witness header: one `U8` tensor of shape `[2]` at offsets `[0, 2)`. -/
def c8Header : List (String × HVal) :=
  [("t", .tensor ⟨"U8", [2], (0, 2)⟩)]

/-- Witness JSON decoder: decodes the single header byte to `c8Header`. -/
def c8Jp (b : List Nat) : Option (List (String × HVal)) :=
  if b = [65] then some c8Header else none

end Safetensors

/-- Witness for C8 applying `safetensors_parse_spec` to a concrete
11-byte file. -/
theorem safetensors_parse_spec_witness :
    (8 ≤ Safetensors.c8Data.length ∧
      1 = Safetensors.leU64 (Safetensors.c8Data.take 8) ∧
      1 ≤ Safetensors.c8Data.length - 8 ∧
      Safetensors.c8Jp ((Safetensors.c8Data.drop 8).take 1) =
        some Safetensors.c8Header ∧
      (Safetensors.c8Header.map Prod.fst).Nodup ∧
      (∀ kv ∈ Safetensors.c8Header,
        Safetensors.GoodEntry (8 + 1) Safetensors.c8Data.length kv)) ∧
    (∃ file, Safetensors.parse Safetensors.c8Jp Safetensors.c8Data = .ok file ∧
      ∀ key t, (key, Safetensors.HVal.tensor t) ∈ Safetensors.c8Header →
        key ≠ "__metadata__" →
        Safetensors.alookup key file.tensors = some
          ⟨t.dtype, t.shape,
            (Safetensors.c8Data.drop (8 + 1 + t.dataOffsets.1)).take
              (t.dataOffsets.2 - t.dataOffsets.1)⟩) :=
  ⟨⟨by decide, by decide, by decide, by decide, by decide, by decide⟩,
    (safetensors_parse_spec Safetensors.c8Jp Safetensors.c8Data).2.2.2
      1 Safetensors.c8Header (by decide) (by decide) (by decide) (by decide)
      (by decide) (by decide)⟩

/-! ## GPU tuner dim sizes (src/tuner.ts, C3)

Embedding of `TuneDims` and of `tuneWebgpu` restricted to the data the
claim is about: the control flow (fallback to `tuneNullopt`, invariant
errors, the upcast heuristic loop) and the returned dim sizes and thread
count.  The rewritten ALU expression and output-index expression of the
`TuneResult` are not modelled; they do not influence the control flow or
the sizes.  `AluVar.gidx` / `AluVar.ridx` and `unravelAlu` live in absent
files and are modelled below; both the kernel sources and the tuner's
`expectedSrc` are built from the same definitions, matching the structural
`deepEqual` comparison of the source.  The `while` loop of step 3 changes
no state in an iteration whose `choices` list is empty, so it then never
terminates; the embedding uses fuel `groups + 1` (an upcast is applied at
most once per output axis) and reports that case as `diverge`. -/

namespace Tuner

/-- Modelled from the spec: `AluVar.gidx`, the global-index placeholder. -/
def gidxA : Alu.AluExp := .special "gidx" 0

/-- Modelled from the spec: `AluVar.ridx`, the reduction-index placeholder. -/
def ridxA : Alu.AluExp := .special "ridx" 0

/-- Modelled from the spec: `unravelAlu(shape, e)` — the multi-index digits
`(e / suffixProd(i+1)) % shape[i]` as ALU expressions. -/
def unravelAluE (shape : List Nat) (e : Alu.AluExp) : List Alu.AluExp :=
  (List.range shape.length).map fun i =>
    .binop .modOp (.binop .idiv e (.const (Shape.suffixProd shape (i + 1))))
      (.const (shape.getD i 1))

mutual

/-- Post-order collection of the `GlobalView` nodes of an expression
(`exp.collect(exp => exp.op === AluOp.GlobalView)`). -/
def collectGV : Alu.AluExp → List (Nat × Shape.View × List Alu.AluExp)
  | .const _ => []
  | .special _ _ => []
  | .binop _ a b => collectGV a ++ collectGV b
  | .globalIndex _ i => collectGV i
  | .globalView g st src => collectGVs src ++ [(g, st, src)]

/-- Post-order collection over a child list. -/
def collectGVs : List Alu.AluExp → List (Nat × Shape.View × List Alu.AluExp)
  | [] => []
  | e :: rest => collectGV e ++ collectGVs rest

end

/-- The tuning dims of `TuneDims`: the working shape tracker (with the
reduction axes), the output tracker, and the four region boundaries. -/
structure TuneDims where
  st : Shape.View
  outputSt : Shape.View
  groups : Nat
  reduce : Nat
  unroll : Nat
  upcast : Nat
deriving DecidableEq, Repr

/-- The `TuneDims` constructor: `groups = reduce = rank - 1`,
`unroll = upcast = rank`. -/
def TuneDims.init (shape : List Nat) : TuneDims :=
  ⟨Shape.fromShape shape, Shape.fromShape shape.dropLast,
    shape.length - 1, shape.length - 1, shape.length, shape.length⟩

/-- The permutation `[0..axis] ++ [axis+2..n] ++ [axis+1]` applied after
splitting `axis`, where `n` is the rank before the split. -/
def permSplit (n axis : Nat) : List Nat :=
  List.range (axis + 1) ++ List.range' (axis + 2) (n - axis - 1) ++ [axis + 1]

/-- `TuneDims.applyUpcast(axis, amount)`: split the axis in both trackers
and move the `amount` factor to the end; the region boundaries stay. -/
def applyUpcast (d : TuneDims) (axis amount : Nat) : TuneDims :=
  { d with
    st := Shape.permute (Shape.splitAxis d.st axis amount)
      (permSplit d.st.shape.length axis)
    outputSt := Shape.permute (Shape.splitAxis d.outputSt axis amount)
      (permSplit d.outputSt.shape.length axis) }

/-- Ascending lexicographic comparison of choice tuples (`lexCompare`). -/
def lexLt : List Int → List Int → Bool
  | [], [] => false
  | [], _ :: _ => true
  | _ :: _, [] => false
  | x :: xs, y :: ys => if x < y then true else if y < x then false else lexLt xs ys

/-- `choices.sort(lexCompare)[0]`: the lexicographic minimum (stable for
the duplicate-free tuples produced below). -/
def chooseBest (choices : List (List Int)) : List Int :=
  match choices with
  | [] => []
  | c :: rest => rest.foldl (fun best x => if lexLt x best then x else best) c

/-- The upcast candidates `[nonzeroStrides, totalStrides, axis, amount]` of
one iteration of step 3: the axis is not yet upcast, divisible by the
amount, and some composed tracker has stride 0 there while its upcast
region has only positive strides. -/
def choicesFor (sts : List Shape.View) (d : TuneDims) (upcasted : List Nat) :
    List (List Int) :=
  let composed := sts.map fun st => Shape.composedLastStrides st d.st
  (List.range d.groups).flatMap fun axis =>
    [3, 4].filterMap fun amount =>
      if (!(upcasted.contains axis)) &&
         (d.st.shape.getD axis 1 % amount == 0) &&
         composed.any (fun ls =>
           (ls.getD axis 1 == 0) &&
           (ls.drop d.unroll).all fun s => decide (0 < s)) then
        some [(composed.map fun ls => if 0 < ls.getD axis 0 then (1 : Int) else 0).foldl (· + ·) 0,
          (composed.map fun ls => ls.getD axis 0).foldl (· + ·) 0,
          (axis : Int), (amount : Int)]
      else none

/-- The `while` loop of step 3: upcast while the output region holds at
least 1024 elements and a candidate exists.  An iteration with no
candidates changes nothing — the source then spins forever, which the fuel
turns into `none`. -/
def upcastLoop (sts : List Shape.View) : Nat → TuneDims → List Nat → Option TuneDims
  | 0, _, _ => none
  | fuel + 1, d, upcasted =>
      if Shape.prodNat (d.st.shape.take d.groups) < 1024 then some d
      else
        match choicesFor sts d upcasted with
        | [] => upcastLoop sts fuel d upcasted
        | c :: rest =>
            let best := chooseBest (c :: rest)
            let axis := (best.getD 2 0).toNat
            let amount := (best.getD 3 0).toNat
            upcastLoop sts fuel (applyUpcast d axis amount) (upcasted ++ [axis])

/-- The dim sizes and thread count of a `TuneResult`. -/
structure TuneSizes where
  groups : Nat
  reduce : Nat
  unroll : Nat
  upcast : Nat
  threadCount : Nat
deriving DecidableEq, Repr

/-- Outcome of `tuneWebgpu`: the `tuneNullopt` fallback, a thrown
invariant error, the non-terminating loop, or a tuned size assignment. -/
inductive TuneOutcome where
  | fallback
  | diverge
  | invariantError
  | tuned (szs : TuneSizes)
deriving DecidableEq, Repr

/-- `prod(shape.slice(a, b))`. -/
def sliceProd (l : List Nat) (a b : Nat) : Nat :=
  Shape.prodNat ((l.drop a).take (b - a))

/-- Embedding of `tuneWebgpu` (src/tuner.ts) restricted to control flow and
the returned `size` / `threadCount`. -/
def tuneWebgpuSizes (kernel : Alu.Kernel) : TuneOutcome :=
  match kernel.reduction with
  | none => .fallback
  | some red =>
      match collectGV kernel.exp with
      | [] => .fallback
      | gv0 :: gvrest =>
          let gvs := gv0 :: gvrest
          let shape := gv0.2.1.shape
          let expectedSrc := unravelAluE shape.dropLast gidxA ++ [ridxA]
          if gvs.any (fun gv => gv.2.2.isEmpty || !(decide (gv.2.2 = expectedSrc)))
          then .fallback
          else if shape.getD (shape.length - 1) 0 ≠ red.size then .invariantError
          else if gvs.any (fun gv => !(decide (gv.2.1.shape = shape)))
          then .invariantError
          else
            let sts := gvs.map fun gv => gv.2.1
            let dim0 := TuneDims.init shape
            match upcastLoop sts (dim0.groups + 1) dim0 [] with
            | none => .diverge
            | some dim =>
                if sliceProd dim.st.shape dim.groups dim.upcast ≠ red.size
                then .invariantError
                else
                  let upc := Shape.prodNat (dim.st.shape.drop dim.upcast)
                  .tuned ⟨sliceProd dim.st.shape dim.groups dim.reduce,
                    sliceProd dim.st.shape dim.reduce dim.unroll,
                    sliceProd dim.st.shape dim.unroll dim.upcast,
                    upc,
                    (kernel.size / upc) * sliceProd dim.st.shape dim.groups dim.reduce⟩

/-- The first operand tracker of the 64x64 matmul kernel of the test suite:
`fromShape([64,64]).reshape([64,1,64]).expand([64,64,64])`. -/
def st1V : Shape.View := ⟨[64, 64, 64], [64, 0, 1], 0⟩

/-- The second operand tracker:
`fromShape([64,64]).permute([1,0]).reshape([1,64,64]).expand([64,64,64])`. -/
def st2V : Shape.View := ⟨[64, 64, 64], [0, 1, 64], 0⟩

/-- The index list `[...unravelAlu([64,64], gidx), ridx]`. -/
def matmulIndices : List Alu.AluExp := unravelAluE [64, 64] gidxA ++ [ridxA]

/-- The 64x64 matmul reduction kernel of the test suite ("performs 64x64
matmul", which the source comments say should trigger the Upcast
optimization). -/
def matmulKernel : Alu.Kernel :=
  ⟨1, 4096,
    .binop .mul (.globalView 0 st1V matmulIndices)
      (.globalView 0 st2V matmulIndices),
    some ⟨.add, 64, none⟩⟩

end Tuner

/-- C3 (counterexample): on the repository's own 64x64 matmul kernel the
tuner takes the optimized path and returns dim sizes
`{groups 1, reduce 64, unroll 1, upcast 16}`, whose product
`reduce * unroll * upcast = 1024` differs from the original reduction size
64 — the claim as stated is false whenever an upcast is applied. -/
theorem tuneWebgpu_reduce_unroll_upcast_counterexample :
    Tuner.tuneWebgpuSizes Tuner.matmulKernel =
      .tuned ⟨1, 64, 1, 16, 256⟩ ∧
    Tuner.matmulKernel.reduction = some ⟨.add, 64, none⟩ ∧
    64 * 1 * 16 ≠ 64 := by
  refine ⟨by decide, rfl, by decide⟩

namespace Tuner

theorem upcastLoop_counters (sts : List Shape.View) :
    ∀ (fuel : Nat) (d : TuneDims) (upc : List Nat) (d' : TuneDims),
    upcastLoop sts fuel d upc = some d' →
    d'.groups = d.groups ∧ d'.reduce = d.reduce ∧
      d'.unroll = d.unroll ∧ d'.upcast = d.upcast := by
  intro fuel
  induction fuel with
  | zero => intro d upc d' h; simp [upcastLoop] at h
  | succ fuel ih =>
      intro d upc d' h
      unfold upcastLoop at h
      by_cases hc : Shape.prodNat (d.st.shape.take d.groups) < 1024
      · rw [if_pos hc] at h
        cases h
        exact ⟨rfl, rfl, rfl, rfl⟩
      · rw [if_neg hc] at h
        rcases hch : choicesFor sts d upc with _ | ⟨c, rest⟩
        · rw [hch] at h
          exact ih d upc d' h
        · rw [hch] at h
          have := ih _ _ _ h
          simpa [applyUpcast] using this

end Tuner

/-- C3 (amended): for every kernel with a reduction on which the GPU tuner
takes the optimized path (neither falling back nor erroring nor spinning),
the returned dim sizes satisfy
`groups * reduce * unroll == the kernel's original reduction size`
(the upcast factor multiplies output dimensions instead). -/
theorem tuneWebgpu_sizes_spec (k : Alu.Kernel) (red : Alu.Reduction)
    (szs : Tuner.TuneSizes) (hred : k.reduction = some red)
    (htuned : Tuner.tuneWebgpuSizes k = .tuned szs) :
    szs.groups * szs.reduce * szs.unroll = red.size := by
  unfold Tuner.tuneWebgpuSizes at htuned
  rw [hred] at htuned
  rcases hgv : Tuner.collectGV k.exp with _ | ⟨gv0, gvrest⟩ <;> rw [hgv] at htuned
  · exact absurd htuned (by simp)
  · simp only at htuned
    split at htuned
    · exact absurd htuned (by simp)
    · split at htuned
      · exact absurd htuned (by simp)
      · split at htuned
        · exact absurd htuned (by simp)
        · rcases hloop : Tuner.upcastLoop
              ((gv0 :: gvrest).map fun gv => gv.2.1)
              ((Tuner.TuneDims.init gv0.2.1.shape).groups + 1)
              (Tuner.TuneDims.init gv0.2.1.shape) [] with _ | dim <;>
            rw [hloop] at htuned
          · exact absurd htuned (by simp)
          · split at htuned
            · rename_i hmatch
              exact absurd hmatch (by simp)
            · rename_i dim2 hmatch
              have hdim : dim = dim2 := by
                injection hmatch
              subst hdim
              split at htuned
              · exact absurd htuned (by simp)
              · rename_i hcheck
                obtain ⟨hg, hr, hu, hup⟩ :=
                  Tuner.upcastLoop_counters _ _ _ _ _ hloop
                simp only [Tuner.TuneDims.init] at hg hr hu hup
                injection htuned with htuned
                subst htuned
                simp only [not_not] at hcheck
                simp only
                rw [hg, hr, hu, hup]
                rw [hg, hup] at hcheck
                have h1 : Tuner.sliceProd dim.st.shape (gv0.2.1.shape.length - 1)
                    (gv0.2.1.shape.length - 1) = 1 := by
                  unfold Tuner.sliceProd
                  simp [Shape.prodNat]
                have h2 : Tuner.sliceProd dim.st.shape gv0.2.1.shape.length
                    gv0.2.1.shape.length = 1 := by
                  unfold Tuner.sliceProd
                  simp [Shape.prodNat]
                rw [h1, h2, one_mul, mul_one]
                exact hcheck

/-- Witness for the amended C3 on the 64x64 matmul kernel:
`1 * 64 * 1 = 64`. -/
theorem tuneWebgpu_sizes_spec_witness :
    (Tuner.matmulKernel.reduction = some ⟨.add, 64, none⟩ ∧
      Tuner.tuneWebgpuSizes Tuner.matmulKernel =
        .tuned ⟨1, 64, 1, 16, 256⟩) ∧
    (Tuner.TuneSizes.mk 1 64 1 16 256).groups *
      (Tuner.TuneSizes.mk 1 64 1 16 256).reduce *
      (Tuner.TuneSizes.mk 1 64 1 16 256).unroll =
        (Alu.Reduction.mk .add 64 none).size :=
  ⟨⟨rfl, by decide⟩,
    tuneWebgpu_sizes_spec Tuner.matmulKernel ⟨.add, 64, none⟩
      ⟨1, 64, 1, 16, 256⟩ rfl (by decide)⟩

/-! ## Nested/flat dictionary round trip (C10)

Embedding of `toNested` / `fromNested` of the safetensors companion file.
Keys are modelled in split, parsed form: the dot-separated string key of the
source becomes a list of parts, a part being either a field name (a
component the `/^\d+$/` test rejects) or an array index (a numeric
component, which for the zero-based array indices of the claim is the
canonical decimal so that `parseInt` and `toString` invert each other).
JS arrays with holes become lists of options; reading a hole (`undefined`,
which `isLeaf` accepts) makes `fromNested` emit the key with value
`undefined`, modelled as `none`, so flattened values are `Option V`.
Property writes on a JS object keep the position of an existing key and
append a new one (`Safetensors.upsert`); reads are `Safetensors.alookup`.
A child access whose part kind does not match the node (an index into a
plain object or a field of an array), which the claim's consistent
addressing rules out, is modelled as a no-op. -/

namespace NestedDict

/-- One component of a dot-separated key: a field name or a numeric
zero-based array index. -/
inductive Part where
  | field (s : String)
  | idx (n : Nat)
deriving DecidableEq, Repr

/-- Whether two parts address the same kind of container. -/
def sameKind : Part → Part → Bool
  | .field _, .field _ => true
  | .idx _, .idx _ => true
  | _, _ => false

/-- `a` is a prefix of `b`. -/
def pfxOf (a b : List Part) : Prop := b.take a.length = a

instance : ∀ a b, Decidable (pfxOf a b) := fun a b => by
  unfold pfxOf
  infer_instance

/-- A nested JS value: a leaf (tensor), a plain object, or an array whose
positions may be holes. -/
inductive Nested (V : Type) where
  | leaf (v : V)
  | obj (fields : List (String × Nested V))
  | arr (elems : List (Option (Nested V)))

/-- `Object.hasOwn` / property read of `currentObj[currentPart]`, for
matching part kinds; a hole or out-of-range index is absent. -/
def getChild {V : Type} : Nested V → Part → Option (Nested V)
  | .obj fs, .field s => Safetensors.alookup s fs
  | .arr es, .idx n => es.getD n none
  | _, _ => none

/-- JS array write `arr[n] = c`: set in range, else extend with holes. -/
def setArr {V : Type} (es : List (Option (Nested V))) (n : Nat)
    (c : Nested V) : List (Option (Nested V)) :=
  if n < es.length then es.set n (some c)
  else es ++ List.replicate (n - es.length) none ++ [some c]

/-- Property write `currentObj[currentPart] = c` for matching part kinds. -/
def setChild {V : Type} : Nested V → Part → Nested V → Nested V
  | .obj fs, .field s, c => .obj (Safetensors.upsert fs s c)
  | .arr es, .idx n, c => .arr (setArr es n c)
  | t, _, _ => t

/-- The container created for a missing child, `[]` or `{}` depending on
whether the next part is numeric. -/
def emptyFor {V : Type} : Part → Nested V
  | .field _ => .obj []
  | .idx _ => .arr []

/-- The insertion loop of `toNested` for one key: walk `(current, part)`
pairs, creating missing children, and assign the value at the end. -/
def insertGo {V : Type} (t : Nested V) (p : Part) : List Part → V → Nested V
  | [], v => setChild t p (.leaf v)
  | q :: rest, v =>
      let child := match getChild t p with
        | some c => c
        | none => emptyFor q
      setChild t p (insertGo child q rest v)

/-- Embedding of `toNested(tensors)`: the top level is an array iff the
dictionary is non-empty and every key starts with a numeric part; each
entry is then inserted in order.  (The source throws on the empty string
key; the claim restricts to non-empty keys.) -/
def toNested {V : Type} (d : List (List Part × V)) : Nested V :=
  let isTopLevelArray := (!d.isEmpty) && d.all fun kv =>
    match kv.1.headD (.field "") with
    | .idx _ => true
    | .field _ => false
  let root : Nested V := if isTopLevelArray then .arr [] else .obj []
  d.foldl (fun acc kv =>
    match kv.1 with
    | [] => acc
    | p :: rest => insertGo acc p rest kv.2) root

mutual

/-- The `flatten` recursion of `fromNested` on a node. -/
def flattenT {V : Type} (pfx : List Part) : Nested V →
    List (List Part × Option V)
  | .leaf v => [(pfx, some v)]
  | .obj fs => flattenFs pfx fs
  | .arr es => flattenEs pfx 0 es

/-- `flatten` over the fields of an object, in property order. -/
def flattenFs {V : Type} (pfx : List Part) :
    List (String × Nested V) → List (List Part × Option V)
  | [] => []
  | (k, c) :: rest => flattenT (pfx ++ [.field k]) c ++ flattenFs pfx rest

/-- `flatten` over the elements of an array from index `i`; a hole is the
`undefined` leaf. -/
def flattenEs {V : Type} (pfx : List Part) (i : Nat) :
    List (Option (Nested V)) → List (List Part × Option V)
  | [] => []
  | some c :: rest => flattenT (pfx ++ [.idx i]) c ++ flattenEs pfx (i + 1) rest
  | none :: rest => (pfx ++ [.idx i], none) :: flattenEs pfx (i + 1) rest

end

/-- Embedding of `fromNested(nested)`: a leaf at the empty prefix throws. -/
def fromNested {V : Type} : Nested V → Option (List (List Part × Option V))
  | .leaf _ => none
  | .obj fs => some (flattenFs [] fs)
  | .arr es => some (flattenEs [] 0 es)

variable {V : Type}

/-- The partial map from split keys to values that a nested node
represents: lookup-level conditions on each constructor.  An object stores
no index-headed keys, an array no field-headed keys; a stored child
represents the sub-map under its part and is non-empty; an absent child, a
hole, and an out-of-range index mean an empty sub-map; array writes keep
the last element filled. -/
inductive Rep : Nested V → (List Part → Option V) → Prop where
  | leaf : ∀ (v : V) (S : List Part → Option V),
      (∀ k, S k = if k = [] then some v else none) →
      Rep (.leaf v) S
  | obj : ∀ (fs : List (String × Nested V)) (S : List Part → Option V),
      S [] = none →
      (∀ n rest, S (.idx n :: rest) = none) →
      (fs.map Prod.fst).Nodup →
      (∀ s c, Safetensors.alookup s fs = some c →
        Rep c (fun k => S (.field s :: k))) →
      (∀ s c, Safetensors.alookup s fs = some c →
        ∃ k, (S (.field s :: k)).isSome) →
      (∀ s, Safetensors.alookup s fs = none → ∀ k, S (.field s :: k) = none) →
      Rep (.obj fs) S
  | arr : ∀ (es : List (Option (Nested V))) (S : List Part → Option V),
      S [] = none →
      (∀ s rest, S (.field s :: rest) = none) →
      (es = [] ∨ ∃ c, es.get? (es.length - 1) = some (some c)) →
      (∀ n c, es.get? n = some (some c) →
        Rep c (fun k => S (.idx n :: k))) →
      (∀ n c, es.get? n = some (some c) →
        ∃ k, (S (.idx n :: k)).isSome) →
      (∀ n, es.get? n = some none → ∀ k, S (.idx n :: k) = none) →
      (∀ n, es.get? n = none → ∀ k, S (.idx n :: k) = none) →
      Rep (.arr es) S

theorem rep_congr {t : Nested V} {S S2 : List Part → Option V}
    (h : Rep t S) (he : ∀ k, S k = S2 k) : Rep t S2 := by
  induction h generalizing S2 with
  | leaf v S hS =>
      exact .leaf v S2 fun k => (he k).symm.trans (hS k)
  | obj fs S h1 h2 h3 h4 h5 h6 ih =>
      refine .obj fs S2 ((he []).symm.trans h1)
        (fun n rest => (he _).symm.trans (h2 n rest)) h3
        (fun s c hc => ih s c hc fun k => he _)
        (fun s c hc => ?_) (fun s hn k => (he _).symm.trans (h6 s hn k))
      obtain ⟨k, hk⟩ := h5 s c hc
      exact ⟨k, by rw [← he _]; exact hk⟩
  | arr es S h1 h2 h3 h4 h5 h6 h7 ih =>
      refine .arr es S2 ((he []).symm.trans h1)
        (fun s rest => (he _).symm.trans (h2 s rest)) h3
        (fun n c hc => ih n c hc fun k => he _)
        (fun n c hc => ?_)
        (fun n hn k => (he _).symm.trans (h6 n hn k))
        (fun n hn k => (he _).symm.trans (h7 n hn k))
      obtain ⟨k, hk⟩ := h5 n c hc
      exact ⟨k, by rw [← he _]; exact hk⟩

/-- The empty map. -/
def emptyM : List Part → Option V := fun _ => none

theorem rep_empty_obj : Rep (V := V) (.obj []) emptyM :=
  .obj [] emptyM rfl (fun _ _ => rfl) List.nodup_nil
    (fun s c hc => by simp [Safetensors.alookup] at hc)
    (fun s c hc => by simp [Safetensors.alookup] at hc)
    (fun _ _ _ => rfl)

theorem rep_empty_arr : Rep (V := V) (.arr []) emptyM :=
  .arr [] emptyM rfl (fun _ _ => rfl) (Or.inl rfl)
    (fun n c hc => by simp at hc)
    (fun n c hc => by simp at hc)
    (fun _ _ _ => rfl) (fun _ _ _ => rfl)

theorem rep_empty_emptyFor (q : Part) : Rep (V := V) (emptyFor q) emptyM := by
  cases q with
  | field s => exact rep_empty_obj
  | idx n => exact rep_empty_arr

/-- The part kind a node accepts for child access. -/
def kindMatch : Nested V → Part → Prop
  | .obj _, .field _ => True
  | .arr _, .idx _ => True
  | _, _ => False

/-- Compatibility of a new key with the keys already stored: neither is a
prefix of the other, and parts after a common prefix have the same kind. -/
def Compat (S : List Part → Option V) (path : List Part) : Prop :=
  (∀ k, (S k).isSome → ¬ pfxOf k path ∧ ¬ pfxOf path k) ∧
  (∀ k, (S k).isSome → ∀ i a b, k.get? i = some a → path.get? i = some b →
    k.take i = path.take i → sameKind a b = true)

theorem pfxOf_nil (b : List Part) : pfxOf [] b := rfl

theorem pfxOf_cons (x y : Part) (a b : List Part) :
    pfxOf (x :: a) (y :: b) ↔ y = x ∧ pfxOf a b := by
  simp [pfxOf]

theorem not_pfxOf_cons_nil (x : Part) (a : List Part) :
    ¬ pfxOf (x :: a) [] := by
  simp [pfxOf]

theorem compat_child (S : List Part → Option V) (p : Part) (rest : List Part)
    (h : Compat S (p :: rest)) :
    Compat (fun k => S (p :: k)) rest := by
  obtain ⟨h1, h2⟩ := h
  constructor
  · intro k hk
    have := h1 (p :: k) hk
    constructor
    · intro hp
      exact this.1 ((pfxOf_cons p p k rest).mpr ⟨rfl, hp⟩)
    · intro hp
      exact this.2 ((pfxOf_cons p p rest k).mpr ⟨rfl, hp⟩)
  · intro k hk i a b hka hpb htake
    exact h2 (p :: k) hk (i + 1) a b (by simpa using hka) (by simpa using hpb)
      (by simpa using htake)

theorem compat_empty (path : List Part) : Compat (V := V) emptyM path := by
  constructor
  · intro k hk
    simp [emptyM] at hk
  · intro k hk
    simp [emptyM] at hk

theorem upsert_names {β : Type} (l : List (String × β)) (k : String) (v : β)
    (h : (l.map Prod.fst).Nodup) :
    ((Safetensors.upsert l k v).map Prod.fst).Nodup := by
  unfold Safetensors.upsert
  cases hany : l.any (fun p => p.1 = k) with
  | true =>
      rw [if_pos rfl]
      have : (l.map fun p => if p.1 = k then (k, v) else p).map Prod.fst =
          l.map Prod.fst := by
        rw [List.map_map]
        apply List.map_congr_left
        intro p _
        by_cases hp : p.1 = k
        · simp [hp]
        · simp [hp]
      rw [this]
      exact h
  | false =>
      rw [if_neg (by simp)]
      rw [List.map_append]
      simp only [List.map_cons, List.map_nil]
      rw [List.nodup_append]
      refine ⟨h, List.nodup_singleton k, ?_⟩
      intro a ha
      simp only [List.mem_singleton]
      intro hak
      subst hak
      obtain ⟨p, hp, hpa⟩ := List.mem_map.mp ha
      have : l.any (fun p => p.1 = a) = true :=
        List.any_eq_true.mpr ⟨p, hp, by simp [hpa]⟩
      rw [this] at hany
      cases hany

theorem setArr_get (es : List (Option (Nested V))) (n : Nat) (c' : Nested V)
    (m : Nat) :
    (setArr es n c').get? m =
      if m = n then some (some c')
      else if m < es.length then es.get? m
      else if m < n then some none
      else none := by
  unfold setArr
  by_cases hn : n < es.length
  · rw [if_pos hn]
    by_cases hm : m = n
    · subst hm
      rw [if_pos rfl, List.get?_set_eq]
      simp [hn]
    · rw [if_neg hm, List.get?_set_ne _ _ (fun hh => hm hh.symm)]
      by_cases hml : m < es.length
      · rw [if_pos hml]
      · rw [if_neg hml]
        have h1 : ¬ m < n := by omega
        rw [if_neg h1, List.get?_eq_none.mpr (by omega)]
  · rw [if_neg hn, List.append_assoc]
    by_cases hml : m < es.length
    · rw [List.get?_append hml]
      have h1 : ¬ (m = n) := by omega
      rw [if_neg h1, if_pos hml]
    · have hlm : es.length ≤ m := by omega
      rw [List.get?_append_right hlm]
      by_cases hmn : m = n
      · subst hmn
        rw [if_pos rfl]
        rw [List.get?_append_right (by simp)]
        simp
      · rw [if_neg hmn, if_neg hml]
        by_cases hmn2 : m < n
        · rw [if_pos hmn2]
          rw [List.get?_append (by simp; omega)]
          rw [List.get?_eq_getElem?]
          rw [List.getElem?_replicate_of_lt (by omega)]
        · rw [if_neg hmn2]
          rw [List.get?_append_right (by simp; omega)]
          apply List.get?_eq_none.mpr
          simp only [List.length_cons, List.length_nil, List.length_replicate]
          omega

theorem setArr_length (es : List (Option (Nested V))) (n : Nat)
    (c' : Nested V) :
    (setArr es n c').length = if n < es.length then es.length else n + 1 := by
  unfold setArr
  by_cases hn : n < es.length
  · rw [if_pos hn, if_pos hn, List.length_set]
  · rw [if_neg hn, if_neg hn]
    simp only [List.length_append, List.length_replicate, List.length_cons,
      List.length_nil]
    omega

theorem setChild_rep (t : Nested V) (S : List Part → Option V) (p : Part)
    (c' : Nested V) (T' : List Part → Option V)
    (hrep : Rep t S) (hkind : kindMatch t p) (hc' : Rep c' T')
    (hne : ∃ k0, (T' k0).isSome) :
    Rep (setChild t p c')
      (fun k => match k with
        | [] => S []
        | p' :: k' => if p' = p then T' k' else S (p' :: k')) := by
  cases hrep with
  | leaf v S hS => exact hkind.elim
  | obj fs S h1 h2 h3 h4 h5 h6 =>
      cases p with
      | idx n => exact hkind.elim
      | field s =>
          refine .obj (Safetensors.upsert fs s c') _ h1 ?_
            (upsert_names fs s c' h3) ?_ ?_ ?_
          · intro n rest
            show (if Part.idx n = Part.field s then T' rest
              else S (.idx n :: rest)) = none
            rw [if_neg (by simp)]
            exact h2 n rest
          · intro s2 c2 hc2
            by_cases hss : s2 = s
            · subst hss
              rw [Safetensors.alookup_upsert_self] at hc2
              injection hc2 with hc2
              subst hc2
              exact rep_congr hc' fun k => by simp
            · rw [Safetensors.alookup_upsert_ne _ _ _ _ hss] at hc2
              refine rep_congr (h4 s2 c2 hc2) fun k => ?_
              show S (.field s2 :: k) =
                if Part.field s2 = Part.field s then T' k else S (.field s2 :: k)
              rw [if_neg (by simp [hss])]
          · intro s2 c2 hc2
            by_cases hss : s2 = s
            · subst hss
              obtain ⟨k0, hk0⟩ := hne
              refine ⟨k0, ?_⟩
              show (Option.isSome (if Part.field s2 = Part.field s2 then T' k0
                else S (.field s2 :: k0))) = true
              rw [if_pos rfl]
              exact hk0
            · rw [Safetensors.alookup_upsert_ne _ _ _ _ hss] at hc2
              obtain ⟨k0, hk0⟩ := h5 s2 c2 hc2
              refine ⟨k0, ?_⟩
              show (Option.isSome (if Part.field s2 = Part.field s then T' k0
                else S (.field s2 :: k0))) = true
              rw [if_neg (by simp [hss])]
              exact hk0
          · intro s2 hn2 k
            have hss : s2 ≠ s := by
              intro he
              subst he
              rw [Safetensors.alookup_upsert_self] at hn2
              cases hn2
            rw [Safetensors.alookup_upsert_ne _ _ _ _ hss] at hn2
            show (if Part.field s2 = Part.field s then T' k
              else S (.field s2 :: k)) = none
            rw [if_neg (by simp [hss])]
            exact h6 s2 hn2 k
  | arr es S h1 h2 h3 h4 h5 h6 h7 =>
      cases p with
      | field s => exact hkind.elim
      | idx n =>
          refine .arr (setArr es n c') _ h1 ?_ ?_ ?_ ?_ ?_ ?_
          · intro s rest
            show (if Part.field s = Part.idx n then T' rest
              else S (.field s :: rest)) = none
            rw [if_neg (by simp)]
            exact h2 s rest
          · refine Or.inr ?_
            rw [setArr_length]
            by_cases hn : n < es.length
            · rw [if_pos hn]
              by_cases hl : es.length - 1 = n
              · refine ⟨c', ?_⟩
                rw [setArr_get, if_pos hl]
              · refine ?_
                rcases h3 with h3 | ⟨c0, hc0⟩
                · exact absurd hn (by simp [h3])
                · refine ⟨c0, ?_⟩
                  rw [setArr_get, if_neg hl, if_pos (by omega)]
                  exact hc0
            · rw [if_neg hn]
              refine ⟨c', ?_⟩
              rw [setArr_get]
              simp
          · intro m c2 hm
            rw [setArr_get] at hm
            by_cases hmn : m = n
            · subst hmn
              rw [if_pos rfl] at hm
              injection hm with hm
              injection hm with hm
              subst hm
              exact rep_congr hc' fun k => by simp
            · rw [if_neg hmn] at hm
              by_cases hml : m < es.length
              · rw [if_pos hml] at hm
                refine rep_congr (h4 m c2 hm) fun k => ?_
                show S (.idx m :: k) =
                  if Part.idx m = Part.idx n then T' k else S (.idx m :: k)
                rw [if_neg (by simp [hmn])]
              · rw [if_neg hml] at hm
                by_cases hml2 : m < n
                · rw [if_pos hml2] at hm
                  cases hm
                · rw [if_neg hml2] at hm
                  cases hm
          · intro m c2 hm
            rw [setArr_get] at hm
            by_cases hmn : m = n
            · subst hmn
              obtain ⟨k0, hk0⟩ := hne
              refine ⟨k0, ?_⟩
              show (Option.isSome (if Part.idx m = Part.idx m then T' k0
                else S (.idx m :: k0))) = true
              rw [if_pos rfl]
              exact hk0
            · rw [if_neg hmn] at hm
              by_cases hml : m < es.length
              · rw [if_pos hml] at hm
                obtain ⟨k0, hk0⟩ := h5 m c2 hm
                refine ⟨k0, ?_⟩
                show (Option.isSome (if Part.idx m = Part.idx n then T' k0
                  else S (.idx m :: k0))) = true
                rw [if_neg (by simp [hmn])]
                exact hk0
              · rw [if_neg hml] at hm
                by_cases hml2 : m < n
                · rw [if_pos hml2] at hm
                  cases hm
                · rw [if_neg hml2] at hm
                  cases hm
          · intro m hm k
            rw [setArr_get] at hm
            by_cases hmn : m = n
            · rw [if_pos hmn] at hm
              cases hm
            · rw [if_neg hmn] at hm
              show (if Part.idx m = Part.idx n then T' k
                else S (.idx m :: k)) = none
              rw [if_neg (by simp [hmn])]
              by_cases hml : m < es.length
              · rw [if_pos hml] at hm
                exact h6 m hm k
              · rw [if_neg hml] at hm
                by_cases hml2 : m < n
                · exact h7 m (List.get?_eq_none.mpr (by omega)) k
                · rw [if_neg hml2] at hm
                  cases hm
          · intro m hm k
            rw [setArr_get] at hm
            by_cases hmn : m = n
            · rw [if_pos hmn] at hm
              cases hm
            · rw [if_neg hmn] at hm
              show (if Part.idx m = Part.idx n then T' k
                else S (.idx m :: k)) = none
              rw [if_neg (by simp [hmn])]
              by_cases hml : m < es.length
              · rw [if_pos hml] at hm
                exact h7 m hm k
              · by_cases hml2 : m < n
                · rw [if_neg hml, if_pos hml2] at hm
                  cases hm
                · exact h7 m (List.get?_eq_none.mpr (by omega)) k

theorem getD_eq_get? (es : List (Option (Nested V))) (n : Nat) :
    es.getD n none = (es.get? n).getD none := by
  induction es generalizing n with
  | nil => cases n <;> rfl
  | cons e rest ih =>
      cases n with
      | zero => rfl
      | succ n => exact ih n

theorem child_kind (c : Nested V) (Sc : List Part → Option V) (q : Part)
    (rest2 : List Part) (hrep : Rep c Sc) (hne : ∃ k, (Sc k).isSome)
    (hcompat : Compat Sc (q :: rest2)) : kindMatch c q := by
  obtain ⟨k0, hk0⟩ := hne
  cases hrep with
  | leaf v S hS =>
      have hpfx := (hcompat.1 k0 hk0).1
      have hk0n : k0 = [] := by
        by_contra hne2
        rw [hS k0, if_neg hne2] at hk0
        simp at hk0
      subst hk0n
      exact absurd (pfxOf_nil _) hpfx
  | obj fs S h1 h2 h3 h4 h5 h6 =>
      cases q with
      | field s => trivial
      | idx n =>
          rcases k0 with _ | ⟨hd, tl⟩
          · rw [h1] at hk0
            simp at hk0
          · cases hd with
            | idx n2 =>
                rw [h2 n2 tl] at hk0
                simp at hk0
            | field s0 =>
                have := hcompat.2 _ hk0 0 (.field s0) (.idx n) rfl rfl rfl
                simp [sameKind] at this
  | arr es S h1 h2 h3 h4 h5 h6 h7 =>
      cases q with
      | idx n => trivial
      | field s =>
          rcases k0 with _ | ⟨hd, tl⟩
          · rw [h1] at hk0
            simp at hk0
          · cases hd with
            | field s2 =>
                rw [h2 s2 tl] at hk0
                simp at hk0
            | idx n0 =>
                have := hcompat.2 _ hk0 0 (.idx n0) (.field s) rfl rfl rfl
                simp [sameKind] at this

theorem getChild_none_sub (t : Nested V) (S : List Part → Option V) (p : Part)
    (hrep : Rep t S) (hkind : kindMatch t p) (hget : getChild t p = none) :
    ∀ k, S (p :: k) = none := by
  cases hrep with
  | leaf v S hS => exact hkind.elim
  | obj fs S h1 h2 h3 h4 h5 h6 =>
      cases p with
      | idx n => exact hkind.elim
      | field s => exact h6 s hget
  | arr es S h1 h2 h3 h4 h5 h6 h7 =>
      cases p with
      | field s => exact hkind.elim
      | idx n =>
          have hg : es.getD n none = none := hget
          rw [getD_eq_get?] at hg
          rcases he : es.get? n with _ | e
          · exact h7 n he
          · rw [he] at hg
            cases e with
            | none => exact h6 n he
            | some c =>
                simp at hg

theorem getChild_some_sub (t : Nested V) (S : List Part → Option V) (p : Part)
    (c : Nested V) (hrep : Rep t S) (hkind : kindMatch t p)
    (hget : getChild t p = some c) :
    Rep c (fun k => S (p :: k)) ∧ ∃ k, (S (p :: k)).isSome := by
  cases hrep with
  | leaf v S hS => exact hkind.elim
  | obj fs S h1 h2 h3 h4 h5 h6 =>
      cases p with
      | idx n => exact hkind.elim
      | field s => exact ⟨h4 s c hget, h5 s c hget⟩
  | arr es S h1 h2 h3 h4 h5 h6 h7 =>
      cases p with
      | field s => exact hkind.elim
      | idx n =>
          have hg : es.getD n none = some c := hget
          rw [getD_eq_get?] at hg
          rcases he : es.get? n with _ | e
          · rw [he] at hg
            simp at hg
          · rw [he] at hg
            cases e with
            | none => simp at hg
            | some c2 =>
                simp at hg
                subst hg
                exact ⟨h4 n _ he, h5 n _ he⟩

theorem insertGo_cons (t : Nested V) (p q : Part) (rest2 : List Part)
    (v : V) :
    insertGo t p (q :: rest2) v =
      setChild t p (insertGo
        (match getChild t p with | some c => c | none => emptyFor q)
        q rest2 v) := rfl

theorem insert_rep : ∀ (rest : List Part) (t : Nested V)
    (S : List Part → Option V) (p : Part) (v : V),
    Rep t S → Compat S (p :: rest) → kindMatch t p →
    Rep (insertGo t p rest v)
      (fun k => if k = p :: rest then some v else S k) := by
  intro rest
  induction rest with
  | nil =>
      intro t S p v hrep hcompat hkind
      have hlf : Rep (Nested.leaf (V := V) v)
          (fun k => if k = [] then some v else none) :=
        .leaf v _ fun k => rfl
      have hstep := setChild_rep t S p (.leaf v)
        (fun k => if k = [] then some v else none) hrep hkind hlf
        ⟨[], by simp⟩
      refine rep_congr hstep fun k => ?_
      rcases k with _ | ⟨p2, k2⟩
      · show S [] = if ([] : List Part) = p :: [] then some v else S []
        rw [if_neg (by simp)]
      · show (if p2 = p then (if k2 = [] then some v else none)
            else S (p2 :: k2)) =
          (if p2 :: k2 = p :: [] then some v else S (p2 :: k2))
        by_cases hp : p2 = p
        · subst hp
          rw [if_pos rfl]
          by_cases hk : k2 = []
          · subst hk
            rw [if_pos rfl, if_pos rfl]
          · rw [if_neg hk, if_neg (by simp [hk])]
            rcases hs : S (p2 :: k2) with _ | v2
            · rfl
            · have hns := (hcompat.1 (p2 :: k2) (by simp [hs])).2
              exact absurd ((pfxOf_cons p2 p2 [] k2).mpr ⟨rfl, pfxOf_nil k2⟩)
                hns
        · rw [if_neg hp, if_neg (by simp [hp])]
  | cons q rest2 ih =>
      intro t S p v hrep hcompat hkind
      rw [insertGo_cons]
      rcases hget : getChild t p with _ | c
      · -- child is created fresh
        have hSp := getChild_none_sub t S p hrep hkind hget
        have hchild := ih (emptyFor q) emptyM q v (rep_empty_emptyFor q)
          (compat_empty _) (by cases q <;> trivial)
        have hstep := setChild_rep t S p _
          (fun k => if k = q :: rest2 then some v else emptyM k)
          hrep hkind hchild ⟨q :: rest2, by simp⟩
        refine rep_congr hstep fun k => ?_
        rcases k with _ | ⟨p2, k2⟩
        · show S [] = if ([] : List Part) = p :: q :: rest2 then some v else S []
          rw [if_neg (by simp)]
        · show (if p2 = p then (if k2 = q :: rest2 then some v else emptyM k2)
              else S (p2 :: k2)) =
            (if p2 :: k2 = p :: q :: rest2 then some v else S (p2 :: k2))
          by_cases hp : p2 = p
          · subst hp
            rw [if_pos rfl]
            by_cases hk : k2 = q :: rest2
            · subst hk
              rw [if_pos rfl, if_pos rfl]
            · rw [if_neg hk, if_neg (by simp [hk]), hSp k2]
              rfl
          · rw [if_neg hp, if_neg (by simp [hp])]
      · -- descend into the existing child
        obtain ⟨hcrep, hcne⟩ := getChild_some_sub t S p c hrep hkind hget
        have hckind := child_kind c _ q rest2 hcrep hcne
          (compat_child S p (q :: rest2) hcompat)
        have hchild := ih c _ q v hcrep
          (compat_child S p (q :: rest2) hcompat) hckind
        have hstep := setChild_rep t S p _
          (fun k => if k = q :: rest2 then some v else S (p :: k))
          hrep hkind hchild ⟨q :: rest2, by simp⟩
        refine rep_congr hstep fun k => ?_
        rcases k with _ | ⟨p2, k2⟩
        · show S [] = if ([] : List Part) = p :: q :: rest2 then some v else S []
          rw [if_neg (by simp)]
        · show (if p2 = p
              then (if k2 = q :: rest2 then some v else S (p :: k2))
              else S (p2 :: k2)) =
            (if p2 :: k2 = p :: q :: rest2 then some v else S (p2 :: k2))
          by_cases hp : p2 = p
          · subst hp
            rw [if_pos rfl]
            by_cases hk : k2 = q :: rest2
            · subst hk
              rw [if_pos rfl, if_pos rfl]
            · rw [if_neg hk, if_neg (by simp [hk])]
          · rw [if_neg hp, if_neg (by simp [hp])]

theorem alookup_none_of_ne {κ β : Type} [DecidableEq κ]
    (l : List (κ × β)) (k : κ) (h : ∀ kv ∈ l, kv.1 ≠ k) :
    Safetensors.alookup k l = none := by
  induction l with
  | nil => rfl
  | cons p rest ih =>
      have hp := h p (List.mem_cons_self p rest)
      simp only [Safetensors.alookup, if_neg hp]
      exact ih fun q hq => h q (List.mem_cons_of_mem p hq)

theorem alookup_isSome_of_mem {κ β : Type} [DecidableEq κ]
    {l : List (κ × β)} {k : κ} {v : β} (h : (k, v) ∈ l) :
    (Safetensors.alookup k l).isSome := by
  induction l with
  | nil => cases h
  | cons p rest ih =>
      rcases List.mem_cons.mp h with he | hm
      · simp [Safetensors.alookup, ← he]
      · by_cases hp : p.1 = k <;> simp [Safetensors.alookup, hp, ih hm]

theorem alookup_mem_of_isSome {κ β : Type} [DecidableEq κ]
    {l : List (κ × β)} {k : κ} (h : (Safetensors.alookup k l).isSome) :
    ∃ v, (k, v) ∈ l := by
  induction l with
  | nil => simp [Safetensors.alookup] at h
  | cons p rest ih =>
      by_cases hp : p.1 = k
      · refine ⟨p.2, ?_⟩
        have he : (k, p.2) = p := by rw [← hp]
        rw [he]
        exact List.mem_cons_self p rest
      · simp only [Safetensors.alookup, if_neg hp] at h
        obtain ⟨v, hv⟩ := ih h
        exact ⟨v, List.mem_cons_of_mem p hv⟩

theorem alookup_append_of_none {κ β : Type} [DecidableEq κ]
    (l1 l2 : List (κ × β)) (k : κ) (h : Safetensors.alookup k l1 = none) :
    Safetensors.alookup k (l1 ++ l2) = Safetensors.alookup k l2 := by
  induction l1 with
  | nil => rfl
  | cons p rest ih =>
      rw [List.cons_append]
      by_cases hp : p.1 = k
      · simp only [Safetensors.alookup, if_pos hp] at h
        cases h
      · simp only [Safetensors.alookup, if_neg hp] at h ⊢
        exact ih h

theorem alookup_append_of_some {κ β : Type} [DecidableEq κ]
    (l1 l2 : List (κ × β)) (k : κ) (v : β)
    (h : Safetensors.alookup k l1 = some v) :
    Safetensors.alookup k (l1 ++ l2) = some v := by
  induction l1 with
  | nil => cases h
  | cons p rest ih =>
      rw [List.cons_append]
      by_cases hp : p.1 = k
      · simp only [Safetensors.alookup, if_pos hp] at h ⊢
        exact h
      · simp only [Safetensors.alookup, if_neg hp] at h ⊢
        exact ih h

/-- Kind comparison of two optional parts: vacuous unless both present. -/
def sameKindO : Option Part → Option Part → Bool
  | some a, some b => sameKind a b
  | _, _ => true

/-- Kind consistency of two keys at position `i`: if they agree before `i`
and both have a part at `i`, those parts have the same kind. -/
def kindOkB (k1 k2 : List Part) (i : Nat) : Bool :=
  !(decide (k1.take i = k2.take i)) || sameKindO (k1.get? i) (k2.get? i)

theorem kindOk_of_B (k1 k2 : List Part)
    (h : ∀ i < k1.length, kindOkB k1 k2 i = true) :
    ∀ i a b, k1.get? i = some a → k2.get? i = some b →
      k1.take i = k2.take i → sameKind a b = true := by
  intro i a b ha hb ht
  have hi : i < k1.length := by
    by_contra hlt
    rw [List.get?_eq_none.mpr (by omega)] at ha
    cases ha
  have hB := h i hi
  unfold kindOkB at hB
  rw [ha, hb, ht] at hB
  simpa [sameKindO] using hB

/-- Density of array indices at one position of one key: every smaller
index also occurs there under the same prefix. -/
def denseOk (d : List (List Part × V)) (k : List Part) (j : Nat) : Prop :=
  ∀ n, k.get? j = some (.idx n) →
    ∀ m < n, ∃ kw ∈ d, kw.1.take j = k.take j ∧ kw.1.get? j = some (.idx m)

instance (d : List (List Part × V)) (k : List Part) (j : Nat) :
    Decidable (denseOk d k j) :=
  match hg : k.get? j with
  | some (.idx n) =>
      decidable_of_iff (∀ m < n, ∃ kw ∈ d,
          kw.1.take j = k.take j ∧ kw.1.get? j = some (.idx m))
        ⟨fun h n2 hn2 => by
            rw [hg] at hn2
            injection hn2 with hn2
            injection hn2 with hn2
            subst hn2
            exact h,
          fun h => h n hg⟩
  | some (.field s) =>
      isTrue fun n hn => by
        rw [hg] at hn
        injection hn with hn
        cases hn
  | none =>
      isTrue fun n hn => by
        rw [hg] at hn
        cases hn

/-- The claim's precondition on the flat dictionary: non-empty keys,
distinct keys, no key a proper prefix of another key, matching part kinds
at every shared position, and dense zero-based indices at array levels. -/
def Wf (d : List (List Part × V)) : Prop :=
  (∀ kv ∈ d, kv.1 ≠ []) ∧
  (d.map Prod.fst).Nodup ∧
  (∀ kv ∈ d, ∀ kw ∈ d, kv.1 ≠ kw.1 → ¬ pfxOf kv.1 kw.1) ∧
  (∀ kv ∈ d, ∀ kw ∈ d, ∀ i < kv.1.length, kindOkB kv.1 kw.1 i = true) ∧
  (∀ kv ∈ d, ∀ j < kv.1.length, denseOk d kv.1 j)

theorem setChild_kindMatch (t : Nested V) (p : Part) (c : Nested V)
    (q : Part) (h : kindMatch t q) : kindMatch (setChild t p c) q := by
  cases t <;> cases p <;> cases q <;> first | exact h | exact h.elim | trivial

theorem insertGo_kindMatch (rest : List Part) (t : Nested V) (p : Part)
    (v : V) (q : Part) (h : kindMatch t q) :
    kindMatch (insertGo t p rest v) q := by
  cases rest with
  | nil => exact setChild_kindMatch t p _ q h
  | cons r rest2 => exact setChild_kindMatch t p _ q h

theorem fold_insert_rep :
    ∀ (todo : List (List Part × V)) (t : Nested V)
      (S : List Part → Option V),
    Rep t S →
    (∀ kv ∈ todo, kv.1 ≠ []) →
    ((todo.map Prod.fst).Nodup) →
    (∀ kv ∈ todo, ∀ kw ∈ todo, kv.1 ≠ kw.1 → ¬ pfxOf kv.1 kw.1) →
    (∀ kv ∈ todo, ∀ kw ∈ todo, ∀ i a b, kv.1.get? i = some a →
      kw.1.get? i = some b → kv.1.take i = kw.1.take i →
      sameKind a b = true) →
    (∀ kv ∈ todo, Compat S kv.1) →
    (∀ kv ∈ todo, ∀ p rest, kv.1 = p :: rest → kindMatch t p) →
    Rep (todo.foldl (fun acc kv =>
        match kv.1 with
        | [] => acc
        | p :: rest => insertGo acc p rest kv.2) t)
      (fun k => if (Safetensors.alookup k todo).isSome
        then Safetensors.alookup k todo else S k) := by
  intro todo
  induction todo with
  | nil =>
      intro t S hrep _ _ _ _ _ _
      exact rep_congr hrep fun k => by simp [Safetensors.alookup]
  | cons kv0 rest ih =>
      intro t S hrep h1 h2 h3 h4 h5 h6
      rcases kv0 with ⟨k0, v0⟩
      rcases k0 with _ | ⟨p0, r0⟩
      · exact absurd rfl (h1 ([], v0) (List.mem_cons_self _ _))
      · simp only [List.foldl_cons]
        have hmem0 : ((p0 :: r0, v0) : List Part × V) ∈
            (p0 :: r0, v0) :: rest := List.mem_cons_self _ _
        have hcompat0 := h5 _ hmem0
        have hkind0 := h6 _ hmem0 p0 r0 rfl
        have hins := insert_rep r0 t S p0 v0 hrep hcompat0 hkind0
        simp only [List.map_cons] at h2
        have hnd := List.nodup_cons.mp h2
        have hk0rest : ∀ kw ∈ rest, kw.1 ≠ p0 :: r0 := by
          intro kw hkw he
          exact hnd.1 (he ▸ List.mem_map_of_mem Prod.fst hkw)
        have hcompat1 : ∀ kv ∈ rest,
            Compat (fun k => if k = p0 :: r0 then some v0 else S k) kv.1 := by
          intro kv hkv
          have hbase := h5 kv (List.mem_cons_of_mem _ hkv)
          have hmemr := List.mem_cons_of_mem ((p0 :: r0, v0)) hkv
          constructor
          · intro k hk
            by_cases hke : k = p0 :: r0
            · subst hke
              refine ⟨?_, ?_⟩
              · exact h3 _ hmem0 kv hmemr
                  (fun he => hk0rest kv hkv he.symm)
              · exact h3 kv hmemr _ hmem0 (hk0rest kv hkv)
            · simp only [if_neg hke] at hk
              exact hbase.1 k hk
          · intro k hk i a b hka hkb htake
            by_cases hke : k = p0 :: r0
            · subst hke
              exact h4 _ hmem0 kv hmemr i a b hka hkb htake
            · simp only [if_neg hke] at hk
              exact hbase.2 k hk i a b hka hkb htake
        have hkind1 : ∀ kv ∈ rest, ∀ p rest2, kv.1 = p :: rest2 →
            kindMatch (insertGo t p0 r0 v0) p := by
          intro kv hkv p rest2 he
          exact insertGo_kindMatch r0 t p0 v0 p
            (h6 kv (List.mem_cons_of_mem _ hkv) p rest2 he)
        have hres := ih (insertGo t p0 r0 v0)
          (fun k => if k = p0 :: r0 then some v0 else S k)
          hins
          (fun kv hkv => h1 kv (List.mem_cons_of_mem _ hkv))
          hnd.2
          (fun kv hkv kw hkw => h3 kv (List.mem_cons_of_mem _ hkv)
            kw (List.mem_cons_of_mem _ hkw))
          (fun kv hkv kw hkw => h4 kv (List.mem_cons_of_mem _ hkv)
            kw (List.mem_cons_of_mem _ hkw))
          hcompat1 hkind1
        refine rep_congr hres fun k => ?_
        show (if (Safetensors.alookup k rest).isSome
            then Safetensors.alookup k rest
            else if k = p0 :: r0 then some v0 else S k) =
          (if (Safetensors.alookup k ((p0 :: r0, v0) :: rest)).isSome
            then Safetensors.alookup k ((p0 :: r0, v0) :: rest) else S k)
        have hcons : Safetensors.alookup k ((p0 :: r0, v0) :: rest) =
            if p0 :: r0 = k then some v0
            else Safetensors.alookup k rest := rfl
        by_cases hke : k = p0 :: r0
        · subst hke
          have hnone : Safetensors.alookup (p0 :: r0) rest = none :=
            alookup_none_of_ne rest _ hk0rest
          rw [hcons, hnone]
          simp
        · have hne2 : p0 :: r0 ≠ k := fun he => hke he.symm
          rw [hcons, if_neg hne2, if_neg hke]

theorem toNested_eq (d : List (List Part × V)) :
    toNested d = d.foldl (fun acc kv =>
      match kv.1 with
      | [] => acc
      | p :: rest => insertGo acc p rest kv.2)
      (if (!d.isEmpty) && (d.all fun kv =>
          match kv.1.headD (.field "") with
          | .idx _ => true
          | .field _ => false)
        then .arr [] else .obj []) := rfl

theorem toNested_rep (d : List (List Part × V)) (hwf : Wf d) :
    Rep (toNested d) (fun k => Safetensors.alookup k d) := by
  obtain ⟨h1, h2, h3, h4, h5⟩ := hwf
  rw [toNested_eq]
  have hroot : ∀ kv ∈ d, ∀ p rest, kv.1 = p :: rest →
      kindMatch (V := V) (if (!d.isEmpty) && (d.all fun kv =>
          match kv.1.headD (.field "") with
          | .idx _ => true
          | .field _ => false)
        then .arr [] else .obj []) p := by
    intro kv hkv p rest he
    by_cases htop : ((!d.isEmpty) && (d.all fun kv =>
        match kv.1.headD (.field "") with
        | .idx _ => true
        | .field _ => false)) = true
    · rw [if_pos htop]
      have hall : (d.all fun kv =>
          match kv.1.headD (.field "") with
          | .idx _ => true
          | .field _ => false) = true := by
        cases hX : (d.all fun kv =>
            match kv.1.headD (.field "") with
            | .idx _ => true
            | .field _ => false)
        · rw [hX, Bool.and_false] at htop
          cases htop
        · rfl
      have hme := List.all_eq_true.mp hall kv hkv
      rw [he] at hme
      cases p with
      | field s => simp at hme
      | idx n => trivial
    · rw [if_neg htop]
      cases p with
      | field s => trivial
      | idx n =>
          exfalso
          have hne : (!d.isEmpty) = true := by
            cases d with
            | nil => cases hkv
            | cons a l => rfl
          have hall : (d.all fun kv =>
              match kv.1.headD (.field "") with
              | .idx _ => true
              | .field _ => false) = false := by
            cases hX : (d.all fun kv =>
                match kv.1.headD (.field "") with
                | .idx _ => true
                | .field _ => false)
            · rfl
            · exact absurd (by rw [hne, hX]; rfl) htop
          obtain ⟨kw, hkw, hkwf⟩ := List.all_eq_false.mp hall
          rcases hq : kw.1 with _ | ⟨q, r2⟩
          · exact h1 kw hkw hq
          · rw [hq] at hkwf
            cases q with
            | idx m => simp at hkwf
            | field s =>
                have hsk := kindOk_of_B kv.1 kw.1
                  (fun i hi => h4 kv hkv kw hkw i hi) 0 (.idx n) (.field s)
                  (by rw [he]; rfl) (by rw [hq]; rfl) rfl
                simp [sameKind] at hsk
  have hrootRep : Rep (V := V) (if (!d.isEmpty) && (d.all fun kv =>
      match kv.1.headD (.field "") with
      | .idx _ => true
      | .field _ => false)
    then .arr [] else .obj []) emptyM := by
    by_cases htop : ((!d.isEmpty) && (d.all fun kv =>
        match kv.1.headD (.field "") with
        | .idx _ => true
        | .field _ => false)) = true
    · rw [if_pos htop]
      exact rep_empty_arr
    · rw [if_neg htop]
      exact rep_empty_obj
  have hres := fold_insert_rep d _ emptyM hrootRep h1 h2 h3
    (fun kv hkv kw hkw => kindOk_of_B kv.1 kw.1
      (fun i hi => h4 kv hkv kw hkw i hi))
    (fun kv _ => compat_empty kv.1) hroot
  refine rep_congr hres fun k => ?_
  rcases hX : Safetensors.alookup k d with _ | v
  · simp [emptyM]
  · simp

/-- Density at the map level: under any prefix, an index can be populated
only if every smaller index is populated. -/
def DenseAt (S : List Part → Option V) : Prop :=
  ∀ pfx n m k, m < n → (S (pfx ++ .idx n :: k)).isSome →
    ∃ k2, (S (pfx ++ .idx m :: k2)).isSome

theorem denseAt_child (S : List Part → Option V) (p : Part)
    (h : DenseAt S) : DenseAt (fun k => S (p :: k)) := by
  intro pfx n m k hm hk
  obtain ⟨k2, hk2⟩ := h (p :: pfx) n m k hm (by simpa using hk)
  exact ⟨k2, by simpa using hk2⟩

theorem wf_dense (d : List (List Part × V)) (hwf : Wf d) :
    DenseAt (fun k => Safetensors.alookup k d) := by
  obtain ⟨h1, h2, h3, h4, h5⟩ := hwf
  intro pfx n m k hm hk
  obtain ⟨v, hv⟩ := alookup_mem_of_isSome (by simpa using hk)
  have hget : (pfx ++ .idx n :: k).get? pfx.length = some (.idx n) := by
    rw [List.get?_append_right (le_refl _)]
    simp
  have hlen : pfx.length < (pfx ++ .idx n :: k).length := by
    rw [List.length_append]
    simp
  obtain ⟨kw, hkw, htake, hgetw⟩ :=
    h5 (pfx ++ .idx n :: k, v) hv pfx.length hlen n hget m hm
  rw [List.take_left pfx (Part.idx n :: k)] at htake
  have h0 : (kw.1.drop pfx.length).get? 0 = some (.idx m) := by
    rw [List.get?_drop]
    simpa using hgetw
  rcases hdrop : kw.1.drop pfx.length with _ | ⟨x, tl⟩
  · rw [hdrop] at h0
    cases h0
  · rw [hdrop] at h0
    injection h0 with h0
    subst h0
    refine ⟨tl, ?_⟩
    have hsplit : kw.1 = pfx ++ Part.idx m :: tl := by
      conv_lhs => rw [← List.take_append_drop pfx.length kw.1]
      rw [htake, hdrop]
    show (Safetensors.alookup (pfx ++ Part.idx m :: tl) d).isSome
    rw [← hsplit]
    exact alookup_isSome_of_mem hkw

mutual

theorem flatKeysT (t : Nested V) : ∀ (pfx : List Part) kv,
    kv ∈ flattenT pfx t → ∃ suf, kv.1 = pfx ++ suf := by
  cases t with
  | leaf v =>
      intro pfx kv hkv
      simp only [flattenT, List.mem_singleton] at hkv
      refine ⟨[], ?_⟩
      rw [hkv]
      simp
  | obj fs =>
      intro pfx kv hkv
      simp only [flattenT] at hkv
      obtain ⟨s, suf, _, he⟩ := flatKeysFs fs pfx kv hkv
      exact ⟨.field s :: suf, he⟩
  | arr es =>
      intro pfx kv hkv
      simp only [flattenT] at hkv
      obtain ⟨n, suf, _, he⟩ := flatKeysEs es pfx 0 kv hkv
      exact ⟨.idx n :: suf, he⟩

theorem flatKeysFs (fs : List (String × Nested V)) : ∀ (pfx : List Part) kv,
    kv ∈ flattenFs pfx fs →
    ∃ s suf, s ∈ fs.map Prod.fst ∧ kv.1 = pfx ++ .field s :: suf := by
  cases fs with
  | nil =>
      intro pfx kv hkv
      simp [flattenFs] at hkv
  | cons f rest =>
      intro pfx kv hkv
      rcases f with ⟨s0, c0⟩
      simp only [flattenFs] at hkv
      rcases List.mem_append.mp hkv with hL | hR
      · obtain ⟨suf, he⟩ := flatKeysT c0 (pfx ++ [.field s0]) kv hL
        refine ⟨s0, suf, by simp, ?_⟩
        rw [he, List.append_assoc]
        rfl
      · obtain ⟨s, suf, hmem, he⟩ := flatKeysFs rest pfx kv hR
        refine ⟨s, suf, ?_, he⟩
        simp only [List.map_cons]
        exact List.mem_cons_of_mem _ hmem

theorem flatKeysEs (es : List (Option (Nested V))) : ∀ (pfx : List Part)
    (i : Nat) kv, kv ∈ flattenEs pfx i es →
    ∃ n suf, i ≤ n ∧ kv.1 = pfx ++ .idx n :: suf := by
  cases es with
  | nil =>
      intro pfx i kv hkv
      simp [flattenEs] at hkv
  | cons e rest =>
      intro pfx i kv hkv
      cases e with
      | some c =>
          simp only [flattenEs] at hkv
          rcases List.mem_append.mp hkv with hL | hR
          · obtain ⟨suf, he⟩ := flatKeysT c (pfx ++ [.idx i]) kv hL
            refine ⟨i, suf, le_refl i, ?_⟩
            rw [he, List.append_assoc]
            rfl
          · obtain ⟨n, suf, hn, he⟩ := flatKeysEs rest pfx (i + 1) kv hR
            exact ⟨n, suf, by omega, he⟩
      | none =>
          simp only [flattenEs] at hkv
          rcases List.mem_cons.mp hkv with he | hR
          · refine ⟨i, [], le_refl i, ?_⟩
            rw [he]
          · obtain ⟨n, suf, hn, he⟩ := flatKeysEs rest pfx (i + 1) kv hR
            exact ⟨n, suf, by omega, he⟩

end

theorem walkFs (fs : List (String × Nested V)) (pfx : List Part)
    (s : String) (k2 : List Part)
    (hnd : (fs.map Prod.fst).Nodup) :
    Safetensors.alookup (pfx ++ .field s :: k2) (flattenFs pfx fs) =
      match Safetensors.alookup s fs with
      | some c => Safetensors.alookup (pfx ++ .field s :: k2)
          (flattenT (pfx ++ [.field s]) c)
      | none => none := by
  revert hnd
  induction fs with
  | nil =>
      intro hnd
      simp [flattenFs, Safetensors.alookup]
  | cons f rest ih =>
      intro hnd
      rcases f with ⟨s0, c0⟩
      simp only [List.map_cons] at hnd
      have hnd1 := List.nodup_cons.mp hnd
      simp only [flattenFs]
      by_cases hs : s0 = s
      · subst hs
        have hrestnone : Safetensors.alookup (pfx ++ .field s0 :: k2)
            (flattenFs pfx rest) = none := by
          apply alookup_none_of_ne
          intro kv hkv
          obtain ⟨s2, suf, hmem, he⟩ := flatKeysFs rest pfx kv hkv
          rw [he]
          intro heq
          have h2 := List.append_cancel_left heq
          injection h2 with ha _
          injection ha with ha
          rw [ha] at hmem
          exact hnd1.1 hmem
        have hlook : Safetensors.alookup s0 ((s0, c0) :: rest) = some c0 := by
          simp [Safetensors.alookup]
        simp only [hlook]
        rcases hb : Safetensors.alookup (pfx ++ Part.field s0 :: k2)
            (flattenT (pfx ++ [Part.field s0]) c0) with _ | v
        · rw [alookup_append_of_none _ _ _ hb, hrestnone]
        · rw [alookup_append_of_some _ _ _ _ hb]
      · have hblocknone : Safetensors.alookup (pfx ++ .field s :: k2)
            (flattenT (pfx ++ [.field s0]) c0) = none := by
          apply alookup_none_of_ne
          intro kv hkv
          obtain ⟨suf, he⟩ := flatKeysT c0 (pfx ++ [.field s0]) kv hkv
          rw [he, List.append_assoc]
          intro heq
          have h2 := List.append_cancel_left heq
          injection h2 with ha _
          injection ha with ha
          exact hs ha
        rw [alookup_append_of_none _ _ _ hblocknone, ih hnd1.2]
        have hskip : Safetensors.alookup s ((s0, c0) :: rest) =
            Safetensors.alookup s rest := by
          simp [Safetensors.alookup, hs]
        rw [hskip]

theorem walkEs (es : List (Option (Nested V))) (pfx : List Part)
    (n : Nat) (k2 : List Part) : ∀ (i : Nat),
    Safetensors.alookup (pfx ++ .idx n :: k2) (flattenEs pfx i es) =
      if n < i then none
      else match es.get? (n - i) with
        | some (some c) => Safetensors.alookup (pfx ++ .idx n :: k2)
            (flattenT (pfx ++ [.idx n]) c)
        | some none => if k2 = [] then some none else none
        | none => none := by
  induction es with
  | nil =>
      intro i
      by_cases h : n < i <;> simp [flattenEs, Safetensors.alookup, h]
  | cons e rest ih =>
      intro i
      cases e with
      | some c =>
          simp only [flattenEs]
          by_cases hni : n = i
          · subst hni
            have hrestnone : Safetensors.alookup (pfx ++ .idx n :: k2)
                (flattenEs pfx (n + 1) rest) = none := by
              apply alookup_none_of_ne
              intro kv hkv
              obtain ⟨m, suf, hmge, he⟩ := flatKeysEs rest pfx (n + 1) kv hkv
              rw [he]
              intro heq
              have h2 := List.append_cancel_left heq
              injection h2 with ha _
              injection ha with ha
              omega
            rw [if_neg (by omega)]
            simp only [Nat.sub_self, List.get?]
            rcases hb : Safetensors.alookup (pfx ++ Part.idx n :: k2)
                (flattenT (pfx ++ [Part.idx n]) c) with _ | v
            · rw [alookup_append_of_none _ _ _ hb, hrestnone]
            · rw [alookup_append_of_some _ _ _ _ hb]
          · have hblocknone : Safetensors.alookup (pfx ++ .idx n :: k2)
                (flattenT (pfx ++ [.idx i]) c) = none := by
              apply alookup_none_of_ne
              intro kv hkv
              obtain ⟨suf, he⟩ := flatKeysT c (pfx ++ [.idx i]) kv hkv
              rw [he, List.append_assoc]
              intro heq
              have h2 := List.append_cancel_left heq
              injection h2 with ha _
              injection ha with ha
              exact hni ha.symm
            rw [alookup_append_of_none _ _ _ hblocknone, ih (i + 1)]
            by_cases hlt : n < i
            · rw [if_pos (by omega), if_pos hlt]
            · rw [if_neg (by omega), if_neg hlt]
              have hg : (some c :: rest).get? (n - i) =
                  rest.get? (n - (i + 1)) := by
                rcases hsub : n - i with _ | dd
                · omega
                · have hdd : n - (i + 1) = dd := by omega
                  rw [hdd]
                  rfl
              rw [hg]
      | none =>
          simp only [flattenEs, Safetensors.alookup]
          by_cases heq : pfx ++ [Part.idx i] = pfx ++ Part.idx n :: k2
          · rw [if_pos heq]
            have h2 := List.append_cancel_left heq
            injection h2 with ha hb
            injection ha with ha
            subst ha
            have hk2 : k2 = [] := hb.symm
            subst hk2
            rw [if_neg (by omega)]
            simp only [Nat.sub_self, List.get?]
            simp
          · rw [if_neg heq, ih (i + 1)]
            by_cases hlt : n < i
            · rw [if_pos (by omega), if_pos hlt]
            · by_cases hni : n = i
              · subst hni
                have hk2 : k2 ≠ [] := by
                  intro h
                  subst h
                  exact heq rfl
                rw [if_pos (by omega), if_neg hlt]
                simp only [Nat.sub_self, List.get?]
                rw [if_neg hk2]
              · rw [if_neg (by omega), if_neg hlt]
                have hg : ((none : Option (Nested V)) :: rest).get? (n - i) =
                    rest.get? (n - (i + 1)) := by
                  rcases hsub : n - i with _ | dd
                  · omega
                  · have hdd : n - (i + 1) = dd := by omega
                    rw [hdd]
                    rfl
                rw [hg]

theorem rep_flat_lookup {t : Nested V} {S : List Part → Option V}
    (h : Rep t S) :
    ∀ (pfx k : List Part), DenseAt S →
      Safetensors.alookup (pfx ++ k) (flattenT pfx t) = (S k).map some := by
  induction h with
  | leaf v S hS =>
      intro pfx k hd
      simp only [flattenT, Safetensors.alookup]
      by_cases hk : k = []
      · subst hk
        rw [if_pos (by simp), hS []]
        simp
      · rw [if_neg (fun he => hk ((List.append_cancel_left
            (show pfx ++ [] = pfx ++ k by simpa using he)).symm))]
        rw [hS k, if_neg hk]
        rfl
  | obj fs S h1 h2 h3 h4 h5 h6 ih =>
      intro pfx k hd
      simp only [flattenT]
      rcases k with _ | ⟨p, k2⟩
      · rw [List.append_nil]
        have hnone : Safetensors.alookup pfx (flattenFs pfx fs) = none := by
          apply alookup_none_of_ne
          intro kv hkv
          obtain ⟨s, suf, _, he⟩ := flatKeysFs fs pfx kv hkv
          rw [he]
          intro heq
          have := congrArg List.length heq
          simp [List.length_append] at this
        rw [hnone, h1]
        rfl
      · cases p with
        | field s =>
            rw [walkFs fs pfx s k2 h3]
            rcases hc : Safetensors.alookup s fs with _ | c
            · simp [h6 s hc]
            · have hih := ih s c hc (pfx ++ [.field s]) k2
                (denseAt_child S (.field s) hd)
              simpa using hih
        | idx n =>
            have hnone : Safetensors.alookup (pfx ++ .idx n :: k2)
                (flattenFs pfx fs) = none := by
              apply alookup_none_of_ne
              intro kv hkv
              obtain ⟨s2, suf, _, he⟩ := flatKeysFs fs pfx kv hkv
              rw [he]
              intro heq
              have h2x := List.append_cancel_left heq
              injection h2x with ha _
              cases ha
            rw [hnone, h2 n k2]
            rfl
  | arr es S h1 h2 h3 h4 h5 h6 h7 ih =>
      intro pfx k hd
      simp only [flattenT]
      have hnohole : ∀ m, es.get? m ≠ some none := by
        intro m hm
        have hmlen : m < es.length := by
          by_contra hx
          rw [List.get?_eq_none.mpr (by omega)] at hm
          cases hm
        rcases h3 with h3 | ⟨c, hc⟩
        · rw [h3] at hmlen
          simp at hmlen
        · by_cases hml : m = es.length - 1
          · rw [← hml] at hc
            rw [hm] at hc
            cases hc
          · obtain ⟨k0, hk0⟩ := h5 (es.length - 1) c hc
            obtain ⟨k2, hk2⟩ := hd [] (es.length - 1) m k0 (by omega)
              (by simpa using hk0)
            simp only [List.nil_append] at hk2
            rw [h6 m hm k2] at hk2
            simp at hk2
      rcases k with _ | ⟨p, k2⟩
      · rw [List.append_nil]
        have hnone : Safetensors.alookup pfx (flattenEs pfx 0 es) = none := by
          apply alookup_none_of_ne
          intro kv hkv
          obtain ⟨m, suf, _, he⟩ := flatKeysEs es pfx 0 kv hkv
          rw [he]
          intro heq
          have := congrArg List.length heq
          simp [List.length_append] at this
        rw [hnone, h1]
        rfl
      · cases p with
        | field s =>
            have hnone : Safetensors.alookup (pfx ++ .field s :: k2)
                (flattenEs pfx 0 es) = none := by
              apply alookup_none_of_ne
              intro kv hkv
              obtain ⟨m, suf, _, he⟩ := flatKeysEs es pfx 0 kv hkv
              rw [he]
              intro heq
              have h2x := List.append_cancel_left heq
              injection h2x with ha _
              cases ha
            rw [hnone, h2 s k2]
            rfl
        | idx n =>
            rw [walkEs es pfx n k2 0]
            rw [if_neg (by omega)]
            simp only [Nat.sub_zero]
            rcases hc : es.get? n with _ | e
            · rw [h7 n hc k2]
              rfl
            · cases e with
              | none => exact absurd hc (hnohole n)
              | some c =>
                  have hih := ih n c hc (pfx ++ [.idx n]) k2
                    (denseAt_child S (.idx n) hd)
                  simpa using hih

/-- C10: for a well-formed flat dictionary, `fromNested (toNested d)`
succeeds and the resulting flat dictionary maps exactly the keys of `d` to
their values (so the round trip is the identity up to entry order, with no
holes produced). -/
theorem fromNested_toNested_id (d : List (List Part × V)) (hwf : Wf d) :
    ∃ out, fromNested (toNested d) = some out ∧
      ∀ k, Safetensors.alookup k out =
        (Safetensors.alookup k d).map some := by
  have hrep := toNested_rep d hwf
  have hdense := wf_dense d hwf
  have hnil : Safetensors.alookup ([] : List Part) d = none :=
    alookup_none_of_ne d [] fun kv hkv => hwf.1 kv hkv
  rcases hT : toNested d with v | fs | es
  · rw [hT] at hrep
    exfalso
    cases hrep with
    | leaf v S hS =>
        have h0 : Safetensors.alookup ([] : List Part) d = some v := by
          simpa using hS []
        rw [hnil] at h0
        cases h0
  · refine ⟨flattenFs [] fs, rfl, fun k => ?_⟩
    rw [hT] at hrep
    have hq := rep_flat_lookup hrep [] k hdense
    simpa [flattenT] using hq
  · refine ⟨flattenEs [] 0 es, rfl, fun k => ?_⟩
    rw [hT] at hrep
    have hq := rep_flat_lookup hrep [] k hdense
    simpa [flattenT] using hq

/-- A concrete dictionary for the round-trip witness: an object holding an
array of two tensors (one nested in an object) and a direct tensor. -/
def c10D : List (List Part × Nat) :=
  [([.field "a", .idx 0], 10),
   ([.field "a", .idx 1, .field "w"], 20),
   ([.field "b"], 30)]

/-- Witness for C10 at a concrete dictionary: the precondition holds and
the round trip reproduces it. -/
theorem fromNested_toNested_id_witness :
    Wf c10D ∧ ∃ out, fromNested (toNested c10D) = some out ∧
      ∀ k, Safetensors.alookup k out =
        (Safetensors.alookup k c10D).map some :=
  ⟨⟨by decide, by decide, by decide, by decide, by decide⟩,
   fromNested_toNested_id c10D
     ⟨by decide, by decide, by decide, by decide, by decide⟩⟩

end NestedDict
